import Mathlib

/-!
# Verification of the destructify binary-format engine

This file gives a shallow embedding, in Lean 4, of the parts of the
destructify parsing/serialization runtime that the checked properties
speak about:

* Python `bytes` values are modelled as `List Nat` with every element
  below 256 (`ValidBytes`);
* Python's `int.from_bytes` / `int.to_bytes` builtins are modelled by
  `pyIntFromBytes` / `pyIntToBytes`;
* the field-level codecs (`BytesField` in its fixed-length mode,
  `IntegerField`, `VariableLengthIntegerField`) are translated from
  `destructify/fields/common.py`;
* the bounded `Substream` (both the copy in `parsing/substream.py` and
  the one in `parsing/streams.py`), and the `BitStream` with its
  pending-bit buffer, are translated from `destructify/parsing/`;
* a sequential structure driver for offset-free, skip-free, non-lazy
  byte-level fields is translated from `Structure.from_stream` /
  `Structure.to_stream` in `destructify/structures/base.py`;
* the two `ArrayField.to_stream` implementations
  (`fields/wrapped.py` and `fields/base_field.py`) and the
  `Field.preparsable` property (`fields/base.py`).

Exceptions are modelled by the `PyError` type below; raising is
modelled by returning `Except.error`.
-/

namespace Destructify

/-- The exceptions that the modelled code can raise.  `writeError`,
`streamExhaustedError`, `misalignedFieldError`, `parseError` and
`wrongMagicError` are destructify's own exception classes from
`destructify/exceptions.py`; the rest are Python builtins
(`OverflowError`, `ValueError`, `IOError`, `TypeError`,
`ZeroDivisionError`) or `io.UnsupportedOperation`. -/
inductive PyError where
  | overflowError
  | valueError
  | ioError
  | typeError
  | zeroDivisionError
  | unsupportedOperation
  | streamExhaustedError
  | writeError
  | misalignedFieldError
  | parseError
  | wrongMagicError
  deriving DecidableEq, Repr

/-- Python `bytes` are modelled as lists of naturals. -/
abbrev Bytes := List Nat

/-- Every element of a well-formed `bytes` value is below 256. -/
def ValidBytes (bs : Bytes) : Prop := ∀ b ∈ bs, b < 256

instance : DecidablePred ValidBytes := fun bs =>
  inferInstanceAs (Decidable (∀ b ∈ bs, b < 256))

/-! ## Python big-endian integer/bytes conversions

`int.from_bytes` and `int.to_bytes` are Python builtins; they are
modelled here from their documented semantics. -/

/-- `int.from_bytes(bs, 'big')` for unsigned values. -/
def natFromBytesBE (bs : Bytes) : Nat := bs.foldl (fun acc b => acc * 256 + b) 0

/-- `v.to_bytes(n, 'big')` for unsigned `v < 256 ^ n` (the overflow
check is performed by `pyIntToBytes` below; this function truncates). -/
def natToBytesBE : Nat → Nat → Bytes
  | _, 0 => []
  | v, n + 1 => natToBytesBE (v / 256) n ++ [v % 256]

/-- The `byteorder` argument of `int.from_bytes` / `int.to_bytes`. -/
inductive ByteOrder where
  | big
  | little
  deriving DecidableEq, Repr

/-- The unsigned value carried by `bs` under the given byte order:
little-endian input is the byte-reversal of big-endian input. -/
def pyIntFromBytesU (bs : Bytes) (bo : ByteOrder) : Nat :=
  natFromBytesBE (match bo with | .big => bs | .little => bs.reverse)

/-- `int.from_bytes(bs, byteorder, signed=signed)`: a signed read
subtracts `256 ^ len` when the most significant bit is set. -/
def pyIntFromBytes (bs : Bytes) (bo : ByteOrder) (signed : Bool) : Int :=
  if signed ∧ 256 ^ bs.length ≤ 2 * pyIntFromBytesU bs bo
  then (pyIntFromBytesU bs bo : Int) - 256 ^ bs.length
  else (pyIntFromBytesU bs bo : Int)

/-- Does `v` fit in `len` bytes with the given signedness?  This is the
range within which `int.to_bytes` does not raise `OverflowError`. -/
def pyIntFits (v : Int) (len : Nat) (signed : Bool) : Prop :=
  if signed then -(256 ^ len : Int) ≤ 2 * v ∧ 2 * v < (256 ^ len : Int)
  else 0 ≤ v ∧ v < (256 ^ len : Int)

instance (v : Int) (len : Nat) (signed : Bool) : Decidable (pyIntFits v len signed) := by
  unfold pyIntFits
  split <;> infer_instance

/-- `v.to_bytes(len, byteorder, signed=signed)`: raises `OverflowError`
when `v` is out of range, otherwise emits the two's-complement
representation. A `byteorder` that is not a string raises `TypeError`
(this happens when an `IntegerField` has no resolvable byte order). -/
def pyIntToBytes (v : Int) (len : Nat) (bo : Option ByteOrder) (signed : Bool) :
    Except PyError Bytes :=
  match bo with
  | none => .error .typeError
  | some bo =>
    if pyIntFits v len signed then
      .ok (match bo with
        | .big => natToBytesBE (v % (256 ^ len : Int)).toNat len
        | .little => (natToBytesBE (v % (256 ^ len : Int)).toNat len).reverse)
    else .error .overflowError

/-! ## `Field.preparsable` (`fields/base.py`)

A field's `offset` argument is absent, an integer literal, a field-name
string, or a callable/expression; `OffsetSpec` enumerates these shapes
so that Python's `isinstance(self.offset, int)` can be expressed. -/

/-- The shape of the value stored in `Field.offset`. -/
inductive OffsetSpec where
  | absent
  | intLit (i : Int)
  | strName (s : String)
  | callable
  deriving DecidableEq, Repr

/-- `Field.preparsable` (`fields/base.py` lines 204-208):
`self.lazy and self.offset is not None and isinstance(self.offset, int)`. -/
def preparsable (lazy : Bool) (offset : OffsetSpec) : Bool :=
  lazy && !(offset = OffsetSpec.absent) && (match offset with
    | .intLit _ => true
    | _ => false)

/-- The preparse-pass condition of `Structure.from_stream`
(`structures/base.py` lines 141-142):
`field.lazy and field.offset is not None and isinstance(field.offset, int)`. -/
def fromStreamPreparseCond (lazy : Bool) (offset : OffsetSpec) : Bool :=
  lazy && !(offset = OffsetSpec.absent) && (match offset with
    | .intLit _ => true
    | _ => false)

/-! ## `BytesField` in fixed-length mode (`fields/common.py`)

The stream is modelled by the list of bytes remaining at the cursor:
`stream.read(n)` consumes from the front (`n < 0` reads to EOF), and a
field's `to_stream` returns the bytes handed to `stream.write` (whose
return value, the written count, is their length). -/

/-- The `terminator_handler` policy of `BytesField`. -/
inductive TermHandler where
  | consume
  | includeH
  | untilH
  deriving DecidableEq, Repr

/-- Configuration of a `BytesField` (`fields/common.py` lines 11-31);
`length` is an integer literal here (the claims under study only
concern literal lengths). -/
structure BytesFieldCfg where
  length : Int
  terminator : Option Bytes := Option.none
  step : Nat := 1
  terminator_handler : TermHandler := TermHandler.consume
  strict : Bool := true
  padding : Option Bytes := Option.none
  deriving DecidableEq, Repr

/-- Python `value[:-n]` (note that `value[:-0]` is `value[:0]`, the
empty string, not the whole value). -/
def pySliceDropLast (value : Bytes) (n : Nat) : Bytes :=
  if n = 0 then [] else value.take (value.length - n)

/-- Python `value[-n:]` (note that `value[-0:]` is `value[0:]`, the
whole value). -/
def pySliceFromNeg (value : Bytes) (n : Nat) : Bytes :=
  if n = 0 then value else value.drop (value.length - n)

/-- Python `pattern * n`. -/
def pyBytesMul (pat : Bytes) (n : Nat) : Bytes := (List.replicate n pat).flatten

/-- The terminator-search loop of `BytesField._from_stream_fixed_length`
(`fields/common.py` lines 83-95), with the number of remaining loop
iterations (bounded by `rest.length` for a positive `step`) made an
explicit structural argument so the definition computes by kernel
reduction: walk `rest` in chunks of `step` bytes, accumulating into
`value`, and stop after a full chunk that makes `value` end with the
terminator (stripping the terminator for the `consume` handler).
Returns `none` when the loop runs out of chunks without a match
(Python's `for … else`). -/
def terminatorScanAux (step : Nat) (term : Bytes) (handler : TermHandler) :
    Nat → Bytes → Bytes → Option Bytes
  | 0, _, _ => none
  | _ + 1, _, [] => none
  | fuel + 1, value, head :: tail =>
    let c := (head :: tail).take step
    if c.length = step ∧ term.isSuffixOf (value ++ c) then
      some (match handler with
        | .consume => pySliceDropLast (value ++ c) term.length
        | _ => value ++ c)
    else terminatorScanAux step term handler fuel (value ++ c) ((head :: tail).drop step)

/-- The terminator-search loop at its entry point (`value = b""`,
`rest = read`, enough fuel for every iteration).  The caller rejects
`step = 0`, where Python's `range` would raise `ValueError` — with the
fuel bound this model returns `none` there instead of diverging. -/
def terminatorScan (step : Nat) (term : Bytes) (handler : TermHandler)
    (value rest : Bytes) : Option Bytes :=
  terminatorScanAux step term handler rest.length value rest

/-- The padding-stripping loop of `_from_stream_fixed_length`
(`fields/common.py` lines 97-100):
`while value[-len(p):] == p: value = value[:-len(p)]`, with the number
of remaining iterations (each strip shortens `value` by at least one
byte, so `value.length` iterations suffice) made an explicit
structural argument so the definition computes by kernel reduction.
(With the degenerate empty pattern and an empty value Python would
loop forever; this total model returns the value unchanged there, and
the padding theorems below assume a non-empty pattern.) -/
def stripPaddingAux (pad : Bytes) : Nat → Bytes → Bytes
  | 0, value => value
  | fuel + 1, value =>
    if ¬ pad.isEmpty ∧ pySliceFromNeg value pad.length = pad then
      stripPaddingAux pad fuel (pySliceDropLast value pad.length)
    else value

/-- The padding-stripping loop at its entry point. -/
def stripPadding (pad : Bytes) (value : Bytes) : Bytes :=
  stripPaddingAux pad value.length value

/-- `BytesField._from_stream_fixed_length` (`fields/common.py`
lines 74-105). Returns the parsed value and the consumed byte count. -/
def bytesFromStreamFixed (cfg : BytesFieldCfg) (stream : Bytes) :
    Except PyError (Bytes × Nat) :=
  let read := if cfg.length < 0 then stream else stream.take cfg.length.toNat
  if (read.length : Int) < cfg.length ∧ cfg.strict then
    .error .streamExhaustedError
  else
    match cfg.terminator with
    | some term =>
      if 0 < cfg.step then
        match terminatorScan cfg.step term cfg.terminator_handler [] read with
        | some value => .ok (value, read.length)
        | none =>
          -- Python's `for … else`: the loop fell through without a break,
          -- leaving `value` holding all of `read`.
          if cfg.strict then .error .streamExhaustedError else .ok (read, read.length)
      else .error .valueError
    | none =>
      match cfg.padding with
      | some pad => .ok (stripPadding pad read, read.length)
      | none => .ok (read, read.length)

/-- The terminator-handling prelude of `BytesField._to_stream_fixed_length`
(`fields/common.py` lines 110-115). -/
def bytesToStreamTermPart (cfg : BytesFieldCfg) (value : Bytes) : Except PyError Bytes :=
  match cfg.terminator with
  | some term =>
    match cfg.terminator_handler with
    | .consume => .ok (value ++ term)
    | .includeH =>
      if ¬ term.isSuffixOf value ∧ cfg.strict then .error .writeError else .ok value
    | .untilH => .ok value
  | none => .ok value

/-- The length/padding part of `BytesField._to_stream_fixed_length`
(`fields/common.py` lines 117-141), applied after the terminator
prelude.  Returns the bytes handed to `stream.write`. -/
def bytesToStreamLenPart (cfg : BytesFieldCfg) (value : Bytes) : Except PyError Bytes :=
  if cfg.length < 0 then
    -- negative length: just write the value
    .ok value
  else
    let length := cfg.length.toNat
    if value.length < length then
      match cfg.padding with
      | some pad =>
        let remaining := length - value.length
        if cfg.strict ∧ pad.length = 0 then
          -- Python evaluates `remaining % len(self.padding)` only when strict
          .error .zeroDivisionError
        else if cfg.strict ∧ remaining % pad.length ≠ 0 then
          .error .writeError
        else .ok ((value ++ pyBytesMul pad remaining).take length)
      | none =>
        if cfg.strict then .error .writeError else .ok value
    else if length < value.length then
      if cfg.strict then .error .writeError else .ok (value.take length)
    else .ok value

/-- `BytesField._to_stream_fixed_length` (`fields/common.py`
lines 107-141). -/
def bytesToStreamFixed (cfg : BytesFieldCfg) (value : Bytes) : Except PyError Bytes :=
  (bytesToStreamTermPart cfg value).bind (bytesToStreamLenPart cfg)

/-! ## `IntegerField` (`fields/common.py` lines 289-318) -/

/-- Configuration of an `IntegerField`; `length` is a literal. -/
structure IntegerFieldCfg where
  length : Nat
  byte_order : Option ByteOrder := Option.none
  signed : Bool := false
  strict : Bool := true
  deriving DecidableEq, Repr

/-- `'big' if not self.byte_order and len == 1 else self.byte_order`,
the byte-order defaulting used by both `IntegerField.from_stream` and
`IntegerField.to_stream`. -/
def effectiveByteOrder (bo : Option ByteOrder) (len : Nat) : Option ByteOrder :=
  if bo = Option.none ∧ len = 1 then some .big else bo

/-- The `BytesFieldCfg` that `IntegerField` inherits for its raw read
(a plain fixed-length field: no terminator, no padding). -/
def IntegerFieldCfg.toBytesCfg (cfg : IntegerFieldCfg) : BytesFieldCfg :=
  { length := (cfg.length : Int), strict := cfg.strict }

/-- `IntegerField.from_stream` (`fields/common.py` lines 295-299):
read like the underlying fixed-length field, then
`int.from_bytes(result, byteorder=…, signed=…)` (note that the
byte-order default looks at `len(result)`, the bytes actually read). -/
def integerFromStream (cfg : IntegerFieldCfg) (stream : Bytes) :
    Except PyError (Int × Nat) :=
  (bytesFromStreamFixed cfg.toBytesCfg stream).bind fun r =>
    match effectiveByteOrder cfg.byte_order r.1.length with
    | none => .error .typeError
    | some bo => .ok (pyIntFromBytes r.1 bo cfg.signed, r.2)

/-- `IntegerField.to_stream` (`fields/common.py` lines 301-307):
`value.to_bytes(length, byteorder=…, signed=…)` followed by
`stream.write`; the result is the bytes handed to the stream. -/
def integerToStream (cfg : IntegerFieldCfg) (value : Int) : Except PyError Bytes :=
  pyIntToBytes value cfg.length (effectiveByteOrder cfg.byte_order cfg.length) cfg.signed

/-! ## `VariableLengthIntegerField` (`fields/common.py` lines 321-347) -/

/-- The read loop of `VariableLengthIntegerField.from_stream`
(`fields/common.py` lines 322-336): read single bytes, accumulating
`result = (result << 7) + (c & 0x7f)`, until a byte with bit `0x80`
clear; `count` counts the bytes read. -/
def varintFromStreamAux : Bytes → Nat → Nat → Except PyError (Nat × Nat)
  | [], _, _ => .error .streamExhaustedError
  | c :: rest, result, count =>
    let result := (result <<< 7) + (c &&& 0x7f)
    if c &&& 0x80 = 0 then .ok (result, count + 1)
    else varintFromStreamAux rest result (count + 1)

/-- `VariableLengthIntegerField.from_stream`. -/
def varintFromStream (stream : Bytes) : Except PyError (Nat × Nat) :=
  varintFromStreamAux stream 0 0

/-- The continuation-flagged 7-bit groups prepended by the
insert-at-front loop of `VariableLengthIntegerField.to_stream`
(`fields/common.py` lines 342-346). -/
def varintHigh : Nat → Bytes
  | 0 => []
  | v + 1 => varintHigh ((v + 1) >>> 7) ++ [((v + 1) &&& 0x7f) ||| 0x80]
termination_by v => v
decreasing_by
  simp only [Nat.shiftRight_eq_div_pow]
  omega

/-- `VariableLengthIntegerField.to_stream` (`fields/common.py`
lines 338-347): negative values raise `OverflowError`; otherwise the
base-128 big-endian groups are written. -/
def varintToStream (value : Int) : Except PyError Bytes :=
  if value < 0 then .error .overflowError
  else .ok (varintHigh (value.toNat >>> 7) ++ [value.toNat &&& 0x7f])

/-! ## An in-memory raw stream

The raw streams underneath `Substream` and `BitStream` are modelled by
`io.BytesIO`: an in-memory, seekable and tellable byte buffer. -/

/-- An `io.BytesIO`: byte contents plus a cursor. -/
structure MemStream where
  data : Bytes
  pos : Nat
  deriving DecidableEq, Repr

/-- `BytesIO.read(size)`: a negative size reads to EOF. -/
def MemStream.read (s : MemStream) (size : Int) : Bytes × MemStream :=
  let avail := s.data.drop s.pos
  let out := if size < 0 then avail else avail.take size.toNat
  (out, { s with pos := s.pos + out.length })

/-- `BytesIO.write(b)`: overwrite at the cursor, zero-filling any gap
beyond EOF; returns the written count. -/
def MemStream.write (s : MemStream) (b : Bytes) : Nat × MemStream :=
  let base := s.data.take s.pos ++ List.replicate (s.pos - s.data.length) 0
  (b.length, { data := base ++ b ++ s.data.drop (s.pos + b.length), pos := s.pos + b.length })

/-- `BytesIO.seek(offset, whence)`: a negative target position, or an
unknown `whence`, raises `ValueError`. -/
def MemStream.seek (s : MemStream) (offset : Int) (whence : Nat) :
    Except PyError (Nat × MemStream) :=
  match whence with
  | 0 =>
    if offset < 0 then .error .valueError
    else .ok (offset.toNat, { s with pos := offset.toNat })
  | 1 =>
    let t := (s.pos : Int) + offset
    if t < 0 then .error .valueError else .ok (t.toNat, { s with pos := t.toNat })
  | 2 =>
    let t := (s.data.length : Int) + offset
    if t < 0 then .error .valueError else .ok (t.toNat, { s with pos := t.toNat })
  | _ => .error .valueError

/-- `BytesIO.tell()`. -/
def MemStream.tell (s : MemStream) : Nat := s.pos

/-! ## `Substream` (`parsing/substream.py` and `parsing/streams.py`)

The repository ships two copies of `Substream`; their constructors,
`_update_position`/`_check_bounds`, `_cap_amount_of_bytes`, `_read`,
`seek` and `tell` are textually identical, while their `write` methods
differ.  The state below is a substream after construction over a
seekable, tellable raw stream — `start` and `length` fixed, `_position`
as `position` (kept as an integer, as `raw.tell() - start` can go
negative before clamping). -/

/-- A constructed `Substream` over a seekable raw stream. -/
structure SubState where
  raw : MemStream
  start : Nat
  length : Option Nat
  position : Int
  deriving DecidableEq, Repr

/-- `Substream._check_bounds` (both files): clamp a negative position
to 0 and, when bounded, a position beyond `length` to `length`,
re-seeking the raw stream to `start + position` in either case. -/
def Substream.checkBounds (s : SubState) : SubState :=
  if s.position < 0 then
    { s with position := 0, raw := { s.raw with pos := s.start } }
  else
    match s.length with
    | some L =>
      if (L : Int) < s.position then
        { s with position := (L : Int), raw := { s.raw with pos := s.start + L } }
      else s
    | none => s

/-- `Substream._update_position_from_raw` (both files); the raw stream
is tellable here, so the position is recomputed from `raw.tell()` and
the bounds are checked. -/
def Substream.updateFromRaw (s : SubState) : SubState :=
  Substream.checkBounds { s with position := (s.raw.pos : Int) - (s.start : Int) }

/-- `Substream._update_position` (both files). -/
def Substream.updatePosition (s : SubState) : SubState :=
  Substream.checkBounds (Substream.updateFromRaw s)

/-- `Substream._cap_amount_of_bytes` (both files, for integer sizes):
with no bound the requested size passes through; with a bound, a
negative (read-all) request caps at `length - position` and otherwise
the minimum of the two applies. -/
def Substream.cap (s : SubState) (size : Int) : Int :=
  match s.length with
  | none => size
  | some L =>
    let maxToRead := (L : Int) - s.position
    if size < 0 then maxToRead else min maxToRead size

/-- `Substream._read`/`Substream.read` (both files): update the
position, read at most the capped amount from the raw stream, advance
the position by what was actually read. -/
def Substream.read (s : SubState) (size : Int) : Bytes × SubState :=
  let s := Substream.updatePosition s
  let r := s.raw.read (Substream.cap s size)
  (r.1, { s with raw := r.2, position := s.position + r.1.length })

/-- `Substream.tell` (both files). -/
def Substream.tell (s : SubState) : Int × SubState :=
  let s := Substream.updatePosition s
  (s.position, s)

/-- The common tail of `Substream.seek` (both files): bounds check,
raw re-seek to `start + position`, return the position. -/
def Substream.seekFinish (s : SubState) : Int × SubState :=
  let s := Substream.checkBounds s
  (s.position, { s with raw := { s.raw with pos := s.start + s.position.toNat } })

/-- `Substream.seek(offset, whence)` (both files): `SEEK_SET` rejects
negative offsets with `ValueError`; `SEEK_CUR` and `SEEK_END` clamp
below at 0; any other `whence` raises `ValueError`; finally the bounds
are applied and the raw stream is re-seeked. -/
def Substream.seek (s : SubState) (offset : Int) (whence : Nat) :
    Except PyError (Int × SubState) :=
  match whence with
  | 0 =>
    if offset < 0 then .error .valueError
    else .ok (Substream.seekFinish { s with position := offset })
  | 1 =>
    let s := Substream.updateFromRaw s
    .ok (Substream.seekFinish { s with position := max 0 (s.position + offset) })
  | 2 =>
    match s.length with
    | none =>
      (s.raw.seek offset 2).map fun r =>
        Substream.seekFinish (Substream.updateFromRaw { s with raw := r.2 })
    | some L =>
      .ok (Substream.seekFinish { s with position := max 0 ((L : Int) + offset) })
  | _ => .error .valueError

/-- `Substream.write` from `parsing/substream.py` (lines 245-250):
the payload is silently truncated to the capped amount before the raw
write. -/
def Substream.writeA (s : SubState) (b : Bytes) : Except PyError (Nat × SubState) :=
  let s := Substream.updatePosition s
  let length := Substream.cap s (b.length : Int)
  let r := s.raw.write (b.take length.toNat)
  .ok (r.1, { s with raw := r.2, position := s.position + r.1 })

/-- `Substream.write` from `parsing/streams.py` (lines 318-327): a
payload larger than the capped amount raises `IOError` instead. -/
def Substream.writeB (s : SubState) (b : Bytes) : Except PyError (Nat × SubState) :=
  let s := Substream.updatePosition s
  let length := Substream.cap s (b.length : Int)
  if length < (b.length : Int) then .error .ioError
  else
    let r := s.raw.write (b.take length.toNat)
    .ok (r.1, { s with raw := r.2, position := s.position + r.1 })

/-! ## `BitStream` (`parsing/bitstream.py`, `parsing/streams.py`)

Both copies guard every byte-level operation with `_check_aligned`
(`bitstream.py` spells the methods out; `streams.py` wraps the same
check around the same delegation in `__getattr__`) and share
`read_bits`/`write_bits`/`_write_bits`/`finalize` verbatim. -/

/-- A `BitStream` over a raw stream: the pending-bit buffer starts as
`None` and holds MSB-first bits (each 0 or 1) once used. -/
structure BitState where
  raw : MemStream
  bitsRemaining : Option (List Nat)
  deriving DecidableEq, Repr

/-- Python truthiness of `self._bits_remaining`: `None` and `[]` are
falsy, so the stream counts as aligned exactly when the buffer is
`None` or empty. -/
def BitState.misaligned (s : BitState) : Bool :=
  match s.bitsRemaining with
  | none => false
  | some l => !l.isEmpty

/-- `BitStream.read` (`parsing/bitstream.py` lines 41-43):
`_check_aligned` then delegate to the raw stream. -/
def BitStream.read (s : BitState) (size : Int) : Except PyError (Bytes × BitState) :=
  if s.misaligned then .error .misalignedFieldError
  else
    let r := s.raw.read size
    .ok (r.1, { s with raw := r.2 })

/-- `BitStream.write` (`parsing/bitstream.py` lines 73-75). -/
def BitStream.write (s : BitState) (b : Bytes) : Except PyError (Nat × BitState) :=
  if s.misaligned then .error .misalignedFieldError
  else
    let r := s.raw.write b
    .ok (r.1, { s with raw := r.2 })

/-- `BitStream.seek` (`parsing/bitstream.py` lines 69-71). -/
def BitStream.seek (s : BitState) (offset : Int) (whence : Nat) :
    Except PyError (Nat × BitState) :=
  if s.misaligned then .error .misalignedFieldError
  else (s.raw.seek offset whence).map fun r => (r.1, { s with raw := r.2 })

/-- `BitStream.flush` (`parsing/bitstream.py` lines 33-35); a
`BytesIO.flush` is a no-op. -/
def BitStream.flush (s : BitState) : Except PyError BitState :=
  if s.misaligned then .error .misalignedFieldError
  else .ok s

/-- The list comprehension `[v >> i & 1 for i in range(n - 1, -1, -1)]`
shared by `read_bits` (with `n = 8` on a fresh byte) and `write_bits`:
the MSB-first bit expansion of `v` to `n` bits. -/
def bitsOfNat (v n : Nat) : List Nat :=
  (List.range n).map fun i => v >>> (n - 1 - i) &&& 1

/-- `sum(bits[i] << (len(bits) - i - 1) for i in range(len(bits)))`,
the big-endian bit sum shared by `read_bits` and `_write_bits`. -/
def natFromBits : List Nat → Nat
  | [] => 0
  | b :: rest => (b <<< rest.length) + natFromBits rest

/-- The MSB-first bit expansion of a byte string, byte by byte (the
bits `read_bits` sees when consuming a stream). -/
def bytesToBits : Bytes → List Nat
  | [] => []
  | b :: rest => bitsOfNat b 8 ++ bytesToBits rest

/-- All bits a `BitStream` can still deliver: the pending buffer
followed by the expansion of the unread bytes. -/
def availBits (s : BitState) : List Nat :=
  s.bitsRemaining.getD [] ++ bytesToBits (s.raw.data.drop s.raw.pos)

/-- `BitStream._write_bits` (`parsing/bitstream.py` lines 143-150): a
non-multiple of 8 bits raises `ValueError`; otherwise the bits are
packed big-endian into `len(bits) / 8` bytes and written raw. -/
def BitStream.writeBitsRaw (s : BitState) (bits : List Nat) :
    Except PyError (Nat × BitState) :=
  if bits.length % 8 ≠ 0 then .error .valueError
  else if bits.isEmpty then .ok (0, s)
  else
    let r := s.raw.write (natToBytesBE (natFromBits bits) (bits.length / 8))
    .ok (r.1, { s with raw := r.2 })

/-- `BitStream.write_bits` (`parsing/bitstream.py` lines 125-141):
append the `bit_count` MSB-first bits of `value` to the pending
buffer, then flush the largest multiple of 8 bits to the raw stream,
keeping the remainder pending. -/
def BitStream.writeBits (s : BitState) (value bitCount : Nat) :
    Except PyError (Nat × BitState) :=
  let pending := s.bitsRemaining.getD [] ++ bitsOfNat value bitCount
  let split := pending.length / 8 * 8
  BitStream.writeBitsRaw { s with bitsRemaining := some (pending.drop split) }
    (pending.take split)

/-- `BitStream.finalize` (`parsing/bitstream.py` lines 81-93): nothing
pending writes nothing; otherwise the pending bits are zero-padded to
a byte boundary (`[0] * (-len % 8)`), written, and discarded. -/
def BitStream.finalize (s : BitState) : Except PyError (Nat × BitState) :=
  match s.bitsRemaining with
  | none => .ok (0, s)
  | some l =>
    if l.isEmpty then .ok (0, s)
    else
      (BitStream.writeBitsRaw s (l ++ List.replicate ((8 - l.length % 8) % 8) 0)).map
        fun r => (r.1, { r.2 with bitsRemaining := Option.none })

/-- The loop of `BitStream.read_bits` (`parsing/bitstream.py`
lines 106-121), one recursive call per iteration: while fewer than
`bit_count` bits are collected, refill the pending buffer from a fresh
raw byte when it is empty (raising `StreamExhaustedError` at EOF), then
move `bit_count - len(result)` pending bits (at most) into the result.
`readCount` counts the raw bytes read. -/
def BitStream.readBitsAux (s : BitState) (acc : List Nat) (readCount needed : Nat) :
    Except PyError (List Nat × Nat × BitState) :=
  if _h : needed = 0 then .ok (acc, readCount, s)
  else
    match s.bitsRemaining.getD [] with
    | [] =>
      let r := s.raw.read 1
      match r.1 with
      | [] => .error .streamExhaustedError
      | byte :: _ =>
        let pending := bitsOfNat byte 8
        let t := min needed pending.length
        BitStream.readBitsAux { raw := r.2, bitsRemaining := some (pending.drop t) }
          (acc ++ pending.take t) (readCount + 1) (needed - t)
    | hd :: tl =>
      let t := min needed (hd :: tl).length
      BitStream.readBitsAux { s with bitsRemaining := some ((hd :: tl).drop t) }
        (acc ++ (hd :: tl).take t) readCount (needed - t)
termination_by needed
decreasing_by
  · simp only [bitsOfNat, List.length_map, List.length_range]
    omega
  · simp only [List.length_cons]
    omega

/-- `BitStream.read_bits` (`parsing/bitstream.py` lines 98-123):
returns the collected bits as one integer together with the number of
bytes read from the raw stream. -/
def BitStream.readBits (s : BitState) (bitCount : Nat) :
    Except PyError (Nat × Nat × BitState) :=
  (BitStream.readBitsAux s [] 0 bitCount).map fun r => (natFromBits r.1, r.2.1, r.2.2)

/-! ## A sequential structure driver (`structures/base.py`)

`Structure.from_stream`/`Structure.to_stream` are embedded here for
structures whose fields are plain byte-level codecs — a fixed-length
`BytesField`, an `IntegerField`, or a `VariableLengthIntegerField` —
declared without `offset`, `skip` or `lazy` and in a structure with no
alignment, no checks and default hooks.  For such structures the
preparse pass of `from_stream` matches nothing, `seek_start` returns
the current position, the `BitStream` wrapper's buffer stays empty (so
byte operations delegate and the final `stream.finalize()` writes
nothing), and the cursor bookkeeping reduces to summing each field's
consumed/written count — which the driver takes from the fields'
return values, not from `tell()`. -/

/-- A decoded field value: Python `bytes` or `int`. -/
inductive Value where
  | bytesV (bs : Bytes)
  | intV (i : Int)
  deriving DecidableEq, Repr

/-- A byte-level field declaration (see the driver comment above). -/
inductive FieldSpec where
  | bytesF (cfg : BytesFieldCfg)
  | integerF (cfg : IntegerFieldCfg)
  | varintF
  deriving DecidableEq, Repr

/-- Dispatch of `field.from_stream(stream, context)` over the modelled
field shapes; the stream is the list of bytes at the cursor. -/
def fieldFromStream : FieldSpec → Bytes → Except PyError (Value × Nat)
  | .bytesF cfg, s => (bytesFromStreamFixed cfg s).map fun r => (.bytesV r.1, r.2)
  | .integerF cfg, s => (integerFromStream cfg s).map fun r => (.intV r.1, r.2)
  | .varintF, s => (varintFromStream s).map fun r => (.intV (r.1 : Int), r.2)

/-- Dispatch of `field.to_stream(stream, value, context)`; a value of
the wrong Python type fails in `to_bytes`/concatenation with
`TypeError`. Returns the bytes handed to the stream. -/
def fieldToStream : FieldSpec → Value → Except PyError Bytes
  | .bytesF cfg, .bytesV v => bytesToStreamFixed cfg v
  | .integerF cfg, .intV v => integerToStream cfg v
  | .varintF, .intV v => varintToStream v
  | .bytesF _, .intV _ => .error .typeError
  | .integerF _, .bytesV _ => .error .typeError
  | .varintF, .bytesV _ => .error .typeError

/-- The sequential pass of `Structure.from_stream` (`structures/base.py`
lines 148-199) under the specialization described above: each field
decodes at the cursor and the cursor advances by the consumed count;
the returned count (`max_offset - start_offset`) is their sum. -/
def structFromStream : List FieldSpec → Bytes → Except PyError (List Value × Nat)
  | [], _ => .ok ([], 0)
  | f :: fs, stream =>
    (fieldFromStream f stream).bind fun r =>
      (structFromStream fs (stream.drop r.2)).map fun rest =>
        (r.1 :: rest.1, r.2 + rest.2)

/-- The sequential pass of `Structure.to_stream` (`structures/base.py`
lines 241-254) under the same specialization, over the instance's
field values in declaration order; the written streams concatenate and
the trailing `stream.finalize()` contributes nothing. -/
def structToStream : List FieldSpec → List Value → Except PyError Bytes
  | [], [] => .ok []
  | f :: fs, v :: vs =>
    (fieldToStream f v).bind fun b =>
      (structToStream fs vs).map fun rest => b ++ rest
  | [], _ :: _ => .error .typeError
  | _ :: _, [] => .error .typeError

/-! ## The two `ArrayField.to_stream` implementations

`fields/wrapped.py` (lines 181-220) checks a declared `count` against
the supplied list and bounds `length`-mode writes by a per-item
substream; `fields/base_field.py` (lines 173-182) has
`# TODO: handle length and count` and writes the supplied elements
with no check at all.  Both are embedded for a base field of
`FieldSpec` shape (no `offset`/`skip`, so the per-item `seek_start` is
a no-op on the substream).  The inner `_recapture` wrapper (defined in
a `structures/base.py` revision not present under `src/`) re-wraps
errors raised *inside* the loop; the theorems below only exercise
paths outside it. -/

/-- The encode loop shared by both implementations: encode each element
with the base field, concatenating the written bytes. -/
def encodeItems (base : FieldSpec) : List Value → Except PyError Bytes
  | [] => .ok []
  | v :: vs =>
    (fieldToStream base v).bind fun b =>
      (encodeItems base vs).map fun rest => b ++ rest

/-- The encode loop of the `wrapped.py` implementation in `length`
mode: each element is written through a fresh substream stopping at
`field_start + L`, whose `write` (`streams.Substream.write`) raises
`IOError` for a payload beyond the remaining capacity. -/
def encodeItemsBounded (base : FieldSpec) (written : Nat) (L : Int) :
    List Value → Except PyError Bytes
  | [] => .ok []
  | v :: vs =>
    (fieldToStream base v).bind fun b =>
      if (L : Int) - (written : Int) < (b.length : Int) then .error .ioError
      else
        (encodeItemsBounded base (written + b.length) L vs).map fun rest => b ++ rest

/-- `ArrayField.to_stream` from `fields/wrapped.py` (lines 181-220):
`None` becomes `[]`; with `count` set, a length mismatch raises
`WriteError` before anything is written; with `length` set, the items
go through bounded substreams (non-negative `L` only, as in the
source) and a shortfall raises `WriteError` afterwards. -/
def arrayToStreamWrapped (base : FieldSpec) (count : Option Nat) (length : Option Int)
    (value : Option (List Value)) : Except PyError Bytes :=
  let value := value.getD []
  match count with
  | some c =>
    if value.length ≠ c then .error .writeError
    else encodeItems base value
  | none =>
    match length with
    | none => encodeItems base value
    | some L =>
      ((if 0 ≤ L then encodeItemsBounded base 0 L value else encodeItems base value).bind
        fun out =>
          if (out.length : Int) < L then .error .writeError else .ok out)

/-- `ArrayField.to_stream` from `fields/base_field.py` (lines 173-182):
`None` becomes `[]`, then every element is encoded in turn — the
declared `count`/`length` are not consulted
(`# TODO: handle length and count`). -/
def arrayToStreamBaseField (base : FieldSpec) (value : Option (List Value)) :
    Except PyError Bytes :=
  encodeItems base (value.getD [])

/-- Fields whose fixed-length encoding is exact: a strict `BytesField`
with a literal non-negative length and neither terminator nor padding,
a strict `IntegerField`, or a `VariableLengthIntegerField`.  For these
the bytes consumed by a successful parse re-encode verbatim, so the
structure-level round-trip holds. -/
def FieldSpec.simpleStrict : FieldSpec → Bool
  | .bytesF cfg =>
    decide (0 ≤ cfg.length) && cfg.terminator.isNone && cfg.padding.isNone && cfg.strict
  | .integerF cfg => cfg.strict
  | .varintF => true

/-! # Theorems

Helper lemmas first, then the theorems settling the claims. -/

/-! ## Byte/integer conversion lemmas -/

theorem natToBytesBE_length (v n : Nat) : (natToBytesBE v n).length = n := by
  induction n generalizing v with
  | zero => rfl
  | succ n ih => simp [natToBytesBE, ih]

theorem natToBytesBE_valid (v n : Nat) : ValidBytes (natToBytesBE v n) := by
  induction n generalizing v with
  | zero => intro b hb; simp [natToBytesBE] at hb
  | succ n ih =>
    intro b hb
    simp only [natToBytesBE, List.mem_append, List.mem_singleton] at hb
    rcases hb with hb | hb
    · exact ih _ b hb
    · subst hb; exact Nat.mod_lt _ (by norm_num)

theorem natFromBytesBE_lt (bs : Bytes) (h : ValidBytes bs) :
    natFromBytesBE bs < 256 ^ bs.length := by
  induction bs using List.reverseRecOn with
  | nil => simp [natFromBytesBE]
  | append_singleton xs x ih =>
    have hx : x < 256 := h x (by simp)
    have hxs : natFromBytesBE xs < 256 ^ xs.length :=
      ih (fun b hb => h b (by simp [hb]))
    simp only [natFromBytesBE, List.foldl_append, List.foldl_cons, List.foldl_nil,
      List.length_append, List.length_singleton]
    calc (List.foldl (fun acc b => acc * 256 + b) 0 xs) * 256 + x
        < ((natFromBytesBE xs) + 1) * 256 := by
          simp only [natFromBytesBE] at hxs ⊢; omega
      _ ≤ 256 ^ xs.length * 256 := by
          have : natFromBytesBE xs + 1 ≤ 256 ^ xs.length := hxs
          exact Nat.mul_le_mul_right 256 this
      _ = 256 ^ (xs.length + 1) := by ring

theorem natFromBytesBE_foldl (bs : Bytes) (acc : Nat) :
    List.foldl (fun a b => a * 256 + b) acc bs = acc * 256 ^ bs.length + natFromBytesBE bs := by
  induction bs generalizing acc with
  | nil => simp [natFromBytesBE]
  | cons x xs ih =>
    simp only [List.foldl_cons]
    rw [ih (acc * 256 + x)]
    have hx : natFromBytesBE (x :: xs) = x * 256 ^ xs.length + natFromBytesBE xs := by
      simp only [natFromBytesBE, List.foldl_cons, Nat.zero_mul, Nat.zero_add]
      exact ih x
    rw [hx, List.length_cons, pow_succ]
    ring

theorem natFromBytesBE_append (a b : Bytes) :
    natFromBytesBE (a ++ b) = natFromBytesBE a * 256 ^ b.length + natFromBytesBE b := by
  simp only [natFromBytesBE, List.foldl_append]
  exact natFromBytesBE_foldl b _

theorem natFromBytesBE_natToBytesBE (v n : Nat) :
    natFromBytesBE (natToBytesBE v n) = v % 256 ^ n := by
  induction n generalizing v with
  | zero => simp [natToBytesBE, natFromBytesBE, Nat.mod_one]
  | succ n ih =>
    simp only [natToBytesBE, natFromBytesBE_append, ih, natToBytesBE_length]
    have h1 : natFromBytesBE [v % 256] = v % 256 := by simp [natFromBytesBE]
    have h2 : v % 256 ^ (n + 1) = v % 256 + 256 * (v / 256 % 256 ^ n) := by
      rw [pow_succ']; exact Nat.mod_mul
    simp only [h1, List.length_singleton, pow_one]
    omega

theorem natToBytesBE_natFromBytesBE (bs : Bytes) (h : ValidBytes bs) :
    natToBytesBE (natFromBytesBE bs) bs.length = bs := by
  induction bs using List.reverseRecOn with
  | nil => rfl
  | append_singleton xs x ih =>
    have hx : x < 256 := h x (by simp)
    have hvalid : ValidBytes xs := fun b hb => h b (by simp [hb])
    have hfold : natFromBytesBE (xs ++ [x]) = natFromBytesBE xs * 256 + x := by
      simp [natFromBytesBE_append, natFromBytesBE, pow_one]
    simp only [List.length_append, List.length_singleton, hfold, natToBytesBE]
    have hdiv : (natFromBytesBE xs * 256 + x) / 256 = natFromBytesBE xs := by omega
    have hmod : (natFromBytesBE xs * 256 + x) % 256 = x := by omega
    rw [hdiv, hmod, ih hvalid]

theorem twoComp_fits (u len : Nat) (signed : Bool) (hu : u < 256 ^ len) :
    pyIntFits (if signed ∧ 256 ^ len ≤ 2 * u then (u : Int) - 256 ^ len else (u : Int))
      len signed := by
  have hcast : ((256:Int) ^ len) = ((256 ^ len : Nat) : Int) := by push_cast; ring
  have huI : ((u : Int)) < ((256 ^ len : Nat) : Int) := by exact_mod_cast hu
  have hnn : (0:Int) ≤ (u : Int) := Int.ofNat_nonneg u
  unfold pyIntFits
  cases signed with
  | false =>
    simp only [Bool.false_eq_true, false_and, if_false]
    exact ⟨hnn, by rw [hcast]; exact huI⟩
  | true =>
    simp only [eq_self_iff_true, true_and]
    by_cases hbit : 256 ^ len ≤ 2 * u
    · rw [if_pos hbit]
      have hbitI : ((256 ^ len : Nat) : Int) ≤ 2 * (u : Int) := by exact_mod_cast hbit
      rw [hcast]
      constructor <;> linarith
    · rw [if_neg hbit]
      have hbitI : 2 * ((u : Int)) < ((256 ^ len : Nat) : Int) := by
        exact_mod_cast Nat.lt_of_not_le hbit
      rw [hcast]
      constructor <;> linarith

theorem twoComp_emod (u len : Nat) (signed : Bool) (hu : u < 256 ^ len) :
    (if signed ∧ 256 ^ len ≤ 2 * u then (u : Int) - 256 ^ len else (u : Int)) %
      ((256:Int) ^ len) = (u : Int) := by
  have hcast : ((256:Int) ^ len) = ((256 ^ len : Nat) : Int) := by push_cast; ring
  have huI : ((u : Int)) < ((256:Int) ^ len) := by rw [hcast]; exact_mod_cast hu
  have hself : ((u : Int) % ((256:Int) ^ len)) = (u : Int) :=
    Int.emod_eq_of_lt (Int.ofNat_nonneg u) huI
  split
  · rw [Int.sub_emod, Int.emod_self, sub_zero, Int.emod_emod_of_dvd _ dvd_rfl, hself]
  · exact hself

theorem pyIntFromBytesU_lt (bs : Bytes) (bo : ByteOrder) (h : ValidBytes bs) :
    pyIntFromBytesU bs bo < 256 ^ bs.length := by
  have hrev : ValidBytes bs.reverse := fun b hb => h b (List.mem_reverse.mp hb)
  cases bo with
  | big => exact natFromBytesBE_lt bs h
  | little =>
    have := natFromBytesBE_lt bs.reverse hrev
    rw [List.length_reverse] at this
    exact this

theorem pyIntFromBytes_fits (bs : Bytes) (bo : ByteOrder) (signed : Bool)
    (h : ValidBytes bs) : pyIntFits (pyIntFromBytes bs bo signed) bs.length signed :=
  twoComp_fits (pyIntFromBytesU bs bo) bs.length signed (pyIntFromBytesU_lt bs bo h)

/-- Reading bytes as an integer and writing the integer back at the
same length, byte order and signedness reproduces the bytes. -/
theorem pyIntToBytes_pyIntFromBytes (bs : Bytes) (bo : ByteOrder) (signed : Bool)
    (h : ValidBytes bs) :
    pyIntToBytes (pyIntFromBytes bs bo signed) bs.length (some bo) signed = .ok bs := by
  have hrev : ValidBytes bs.reverse := fun b hb => h b (List.mem_reverse.mp hb)
  have hu := pyIntFromBytesU_lt bs bo h
  have hmod : (pyIntFromBytes bs bo signed) % ((256:Int) ^ bs.length) =
      ((pyIntFromBytesU bs bo : Nat) : Int) :=
    twoComp_emod (pyIntFromBytesU bs bo) bs.length signed hu
  simp only [pyIntToBytes, if_pos (pyIntFromBytes_fits bs bo signed h), hmod,
    Int.toNat_natCast]
  cases bo with
  | big =>
    have hb := natToBytesBE_natFromBytesBE bs h
    simp only [pyIntFromBytesU, hb]
  | little =>
    have hb := natToBytesBE_natFromBytesBE bs.reverse hrev
    rw [List.length_reverse] at hb
    simp only [pyIntFromBytesU, hb, List.reverse_reverse]

/-! ## Claim C8: `Field.preparsable` -/

/-- C8, counterexample: a lazy field whose `offset` is the negative
integer literal `-5` *is* preparsable — `Field.preparsable` (and the
driver's preparse condition) test `isinstance(offset, int)` with no
sign check, contradicting the claim that such a field is not
preparsable. -/
theorem preparsable_negative_offset_counterexample :
    preparsable true (OffsetSpec.intLit (-5)) = true ∧ (-5 : Int) < 0 := by
  exact ⟨rfl, by decide⟩

/-- C8, amended: a field is preparsable exactly when `lazy` is set and
its `offset` is an integer literal — of either sign; the preparse pass
of `Structure.from_stream` uses the identical condition. -/
theorem preparsable_iff (lazy : Bool) (offset : OffsetSpec) :
    (preparsable lazy offset = true ↔
      lazy = true ∧ ∃ i : Int, offset = OffsetSpec.intLit i) ∧
    fromStreamPreparseCond lazy offset = preparsable lazy offset := by
  refine ⟨?_, rfl⟩
  cases offset <;>
    simp [preparsable, Bool.and_eq_true, decide_eq_true_eq]

/-! ## Claim C6: `IntegerField.to_stream` overflow -/

/-- C6, counterexample: writing 1000 into a 1-byte little-endian
unsigned `IntegerField` fails with `OverflowError` (raised by
`int.to_bytes`, as the repository's own tests assert), which is not
destructify's `WriteError` class — the WRITE_ERROR kind everywhere
else. -/
theorem integerToStream_overflow_counterexample :
    ¬ pyIntFits 1000 1 false ∧
    integerToStream { length := 1, byte_order := some ByteOrder.little } 1000 =
      .error .overflowError ∧
    PyError.overflowError ≠ PyError.writeError := by
  refine ⟨by decide, rfl, by decide⟩

/-- C6, amended: an integer outside the range representable in the
declared byte length with the declared signedness makes
`IntegerField.to_stream` fail with `OverflowError` (not `WriteError`),
whenever the field's byte order is resolvable (a declared byte order,
or the single-byte default). -/
theorem integerToStream_overflow (cfg : IntegerFieldCfg) (v : Int)
    (hbo : cfg.byte_order ≠ Option.none ∨ cfg.length = 1)
    (hfit : ¬ pyIntFits v cfg.length cfg.signed) :
    integerToStream cfg v = .error .overflowError := by
  obtain ⟨bo, hbo2⟩ : ∃ bo, effectiveByteOrder cfg.byte_order cfg.length = some bo := by
    rcases hcase : cfg.byte_order with _ | bo
    · have h1 : cfg.length = 1 := by
        rcases hbo with h | h
        · exact absurd hcase h
        · exact h
      exact ⟨.big, by simp [effectiveByteOrder, hcase, h1]⟩
    · exact ⟨bo, by simp [effectiveByteOrder, hcase]⟩
  unfold integerToStream
  rw [hbo2]
  simp only [pyIntToBytes]
  rw [if_neg hfit]

/-- Witness for `integerToStream_overflow` at a concrete input. -/
theorem integerToStream_overflow_witness :
    integerToStream { length := 1, byte_order := some ByteOrder.big } 1000 =
      .error .overflowError :=
  integerToStream_overflow { length := 1, byte_order := some ByteOrder.big } 1000
    (Or.inl (by decide)) (by decide)

/-! ## Claim C5: fixed-length `BytesField` padding -/

theorem pyBytesMul_length (p : Bytes) (n : Nat) :
    (pyBytesMul p n).length = n * p.length := by
  induction n with
  | zero => simp [pyBytesMul]
  | succ n ih =>
    simp only [pyBytesMul, List.replicate_succ, List.flatten_cons, List.length_append]
    simp only [pyBytesMul] at ih
    rw [ih]
    ring

theorem bytesToStreamTermPart_none (cfg : BytesFieldCfg) (v : Bytes)
    (hterm : cfg.terminator = Option.none) : bytesToStreamTermPart cfg v = .ok v := by
  simp [bytesToStreamTermPart, hterm]

/-- Evaluation of `_from_stream_fixed_length` on a terminator-free
field with a non-negative literal length and enough input. -/
theorem bytesFromStreamFixed_eval (cfg : BytesFieldCfg) (N : Nat) (stream : Bytes)
    (hlen : cfg.length = (N : Int)) (hterm : cfg.terminator = Option.none)
    (hstream : N ≤ stream.length) :
    bytesFromStreamFixed cfg stream =
      match cfg.padding with
      | some pad => .ok (stripPadding pad (stream.take N), N)
      | none => .ok (stream.take N, N) := by
  have hnneg : ¬ ((N : Int) < 0) := not_lt.mpr (Int.ofNat_nonneg N)
  have hlenread : (stream.take N).length = N := by rw [List.length_take]; omega
  simp only [bytesFromStreamFixed, hterm, hlen, if_neg hnneg, Int.toNat_natCast, hlenread]
  rw [if_neg (by simp)]

/-- C5, counterexample: on a strict `BytesField(length=4, padding=b"ab")`
a 1-byte payload is *not* padded to 4 bytes — the shortfall 3 is not a
multiple of the 2-byte pattern, so the write fails with `WriteError`. -/
theorem bytesField_padding_counterexample :
    ([120] : Bytes).length < 4 ∧
    bytesToStreamFixed { length := 4, padding := some [97, 98] } [120] =
      .error .writeError :=
  ⟨by decide, rfl⟩

/-- C5, amended, for a terminator-free `BytesField` with literal
non-negative length `N`:
* on read (with enough input), a configured padding pattern is
  stripped from the tail of the value;
* on write, a payload shorter than `N` is extended with the padding
  pattern to exactly `N` bytes when padding is configured *and* either
  `strict` is off or the shortfall is a multiple of the pattern
  length;
* with `strict` on and a shortfall that is not a multiple of the
  (non-empty) pattern length, the write fails with `WriteError`
  instead of padding;
* with no padding configured and `strict` on, a short write fails
  with `WriteError`. -/
theorem bytesField_fixed_padding (cfg : BytesFieldCfg) (N : Nat) (p v stream : Bytes)
    (hlen : cfg.length = (N : Int)) (hterm : cfg.terminator = Option.none) :
    (cfg.padding = some p → N ≤ stream.length →
      bytesFromStreamFixed cfg stream = .ok (stripPadding p (stream.take N), N)) ∧
    (cfg.padding = some p → p ≠ [] → v.length < N →
      (cfg.strict = false ∨ (N - v.length) % p.length = 0) →
      ∃ out, bytesToStreamFixed cfg v = .ok out ∧ out.length = N) ∧
    (cfg.padding = some p → p ≠ [] → v.length < N → cfg.strict = true →
      (N - v.length) % p.length ≠ 0 →
      bytesToStreamFixed cfg v = .error .writeError) ∧
    (cfg.padding = Option.none → v.length < N → cfg.strict = true →
      bytesToStreamFixed cfg v = .error .writeError) := by
  have hnneg : ¬ (cfg.length < 0) := by rw [hlen]; exact not_lt.mpr (Int.ofNat_nonneg N)
  have htoNat : cfg.length.toNat = N := by rw [hlen, Int.toNat_natCast]
  refine ⟨?_, ?_, ?_, ?_⟩
  · intro hpad hstream
    rw [bytesFromStreamFixed_eval cfg N stream hlen hterm hstream, hpad]
  · intro hpad hp hshort hok
    unfold bytesToStreamFixed
    rw [bytesToStreamTermPart_none cfg v hterm]
    simp only [Except.bind, bytesToStreamLenPart, hpad, htoNat]
    rw [if_neg hnneg, if_pos hshort]
    have hpl : 0 < p.length := List.length_pos.mpr hp
    have houtlen : ((v ++ pyBytesMul p (N - v.length)).take N).length = N := by
      rw [List.length_take, List.length_append, pyBytesMul_length]
      have : N - v.length ≤ (N - v.length) * p.length := Nat.le_mul_of_pos_right _ hpl
      omega
    rcases hok with hok | hok
    · rw [if_neg (by simp [hok]), if_neg (by simp [hok])]
      exact ⟨_, rfl, houtlen⟩
    · rw [if_neg (by simp [hpl, Nat.pos_iff_ne_zero.mp hpl]), if_neg (by simp [hok])]
      exact ⟨_, rfl, houtlen⟩
  · intro hpad hp hshort hstrict hnm
    unfold bytesToStreamFixed
    rw [bytesToStreamTermPart_none cfg v hterm]
    simp only [Except.bind, bytesToStreamLenPart, hpad, htoNat]
    rw [if_neg hnneg, if_pos hshort]
    have hpl : p.length ≠ 0 := fun hc => hp (List.eq_nil_of_length_eq_zero hc)
    rw [if_neg (by simp [hstrict, hpl]), if_pos ⟨hstrict, hnm⟩]
  · intro hpad hshort hstrict
    unfold bytesToStreamFixed
    rw [bytesToStreamTermPart_none cfg v hterm]
    simp only [Except.bind, bytesToStreamLenPart, hpad, htoNat]
    rw [if_neg hnneg, if_pos hshort, if_pos hstrict]

/-- Witness for `bytesField_fixed_padding` at concrete inputs: a
strict `BytesField(length=4, padding=b"\x00")` strips `b"ab\x00\x00"`
to `b"ab"` on read and pads `b"a"` to 4 bytes on write; the strict
2-byte-pattern field errors on an odd shortfall; the padding-free
strict field errors on a short write. -/
theorem bytesField_fixed_padding_witness :
    (bytesFromStreamFixed { length := 4, padding := some [0] } [97, 98, 0, 0, 99] =
      .ok ([97, 98], 4)) ∧
    (∃ out, bytesToStreamFixed { length := 4, padding := some [0] } [97] =
      .ok out ∧ out.length = 4) ∧
    (bytesToStreamFixed { length := 4, padding := some [97, 98] } [120] =
      .error .writeError) ∧
    (bytesToStreamFixed { length := 4 } [120] = .error .writeError) := by
  refine ⟨?_, ?_, ?_, ?_⟩
  · have h := (bytesField_fixed_padding { length := 4, padding := some [0] } 4
      [0] [] [97, 98, 0, 0, 99] rfl rfl).1 rfl (by decide)
    rw [h]; rfl
  · exact (bytesField_fixed_padding { length := 4, padding := some [0] } 4
      [0] [97] [] rfl rfl).2.1 rfl (by decide) (by decide) (Or.inr (by decide))
  · exact (bytesField_fixed_padding { length := 4, padding := some [97, 98] } 4
      [97, 98] [120] [] rfl rfl).2.2.1 rfl (by decide) (by decide) rfl (by decide)
  · exact (bytesField_fixed_padding { length := 4 } 4
      [0] [120] [] rfl rfl).2.2.2 rfl (by decide) rfl

/-! ## Claim C10: `VariableLengthIntegerField` round-trip -/

theorem land_127 (c : Nat) : c &&& 127 = c % 128 := by
  have h := Nat.and_pow_two_sub_one_eq_mod c 7
  norm_num at h
  exact h

theorem shiftRight_7 (v : Nat) : v >>> 7 = v / 128 := by
  have := Nat.shiftRight_eq_div_pow v 7
  simpa using this

theorem lor_128 : ∀ x < 128, x ||| 128 = x + 128 := by decide

theorem flagged_land_127 : ∀ x < 128, (x + 128) &&& 127 = x := by decide

theorem flagged_land_128 : ∀ x < 128, (x + 128) &&& 128 ≠ 0 := by decide

theorem unflagged_land_128 : ∀ x < 128, x &&& 128 = 0 := by decide

/-- Every byte emitted by the continuation loop is a flagged 7-bit
group: `v % 128 + 128`. -/
theorem varintHigh_eq (v : Nat) (hv : 0 < v) :
    varintHigh v = varintHigh (v >>> 7) ++ [v % 128 + 128] := by
  match v, hv with
  | w + 1, _ =>
    rw [varintHigh]
    congr 1
    rw [land_127, lor_128 _ (Nat.mod_lt _ (by norm_num))]

/-- Feeding the continuation groups of `v` into the read loop shifts
them into the accumulator. -/
theorem varintFromStreamAux_high (v : Nat) :
    ∀ tail result count,
      varintFromStreamAux (varintHigh v ++ tail) result count =
        varintFromStreamAux tail (result * 128 ^ (varintHigh v).length + v)
          (count + (varintHigh v).length) := by
  induction v using Nat.strong_induction_on with
  | _ v ih =>
    match v with
    | 0 =>
      intro tail result count
      have h0 : varintHigh 0 = [] := by simp only [varintHigh]
      rw [h0, List.nil_append]
      simp
    | w + 1 =>
      intro tail result count
      have hpos : 0 < w + 1 := Nat.succ_pos w
      have hlt : (w + 1) >>> 7 < w + 1 := by
        rw [shiftRight_7]; omega
      have hmod : (w + 1) % 128 < 128 := Nat.mod_lt _ (by norm_num)
      rw [varintHigh_eq (w + 1) hpos, List.append_assoc,
        ih ((w + 1) >>> 7) hlt ([(w + 1) % 128 + 128] ++ tail) result count]
      simp only [List.singleton_append, varintFromStreamAux]
      rw [if_neg (flagged_land_128 _ hmod), flagged_land_127 _ hmod]
      simp only [List.append_eq, List.nil_append, List.length_append, List.length_singleton]
      have hdm2 : (w + 1) / 128 * 128 + (w + 1) % 128 = w + 1 := by
        have hdm := Nat.div_add_mod (w + 1) 128
        omega
      have harith :
          (result * 128 ^ (varintHigh ((w + 1) >>> 7)).length + (w + 1) >>> 7) <<< 7 +
            (w + 1) % 128 =
          result * 128 ^ ((varintHigh ((w + 1) >>> 7)).length + 1) + (w + 1) := by
        have h2 : (2 : Nat) ^ 7 = 128 := by norm_num
        rw [Nat.shiftLeft_eq, shiftRight_7, h2, pow_succ]
        ring_nf
        omega
      rw [harith, Nat.add_assoc]

/-- Decoding the encoding of a non-negative value consumes exactly the
encoded bytes and returns the value, whatever follows them. -/
theorem varintFromStream_encode (v : Nat) (tail : Bytes) :
    varintFromStream ((varintHigh (v >>> 7) ++ [v &&& 127]) ++ tail) =
      .ok (v, (varintHigh (v >>> 7) ++ [v &&& 127]).length) := by
  unfold varintFromStream
  rw [List.append_assoc, varintFromStreamAux_high (v >>> 7) ([v &&& 127] ++ tail) 0 0]
  simp only [List.singleton_append, varintFromStreamAux]
  have hmod : v &&& 127 = v % 128 := land_127 v
  have hlt : v % 128 < 128 := Nat.mod_lt _ (by norm_num)
  have hmod2 : v % 128 &&& 127 = v % 128 := by
    rw [land_127]
    omega
  rw [hmod, if_pos (unflagged_land_128 _ hlt), hmod2]
  have harith : (0 * 128 ^ (varintHigh (v >>> 7)).length + v >>> 7) <<< 7 + v % 128 = v := by
    rw [Nat.shiftLeft_eq, shiftRight_7]
    have hdm := Nat.div_add_mod v 128
    omega
  rw [harith]
  simp [List.length_append]

/-- C10: `VariableLengthIntegerField` round-trips every non-negative
integer through the base-128 varint encoding — `from_stream` applied
to the bytes `to_stream(v)` produced (under any continuation of the
stream) returns `v` together with exactly the number of bytes written
— and `to_stream` rejects every negative value with `OverflowError`. -/
theorem varint_roundtrip (v : Int) :
    (0 ≤ v → ∃ enc, varintToStream v = .ok enc ∧
      ∀ tail, varintFromStream (enc ++ tail) = .ok (v.toNat, enc.length)) ∧
    (v < 0 → varintToStream v = .error .overflowError) := by
  constructor
  · intro hv
    refine ⟨varintHigh (v.toNat >>> 7) ++ [v.toNat &&& 127], ?_, ?_⟩
    · unfold varintToStream
      rw [if_neg (not_lt.mpr hv)]
    · intro tail
      exact varintFromStream_encode v.toNat tail
  · intro hv
    unfold varintToStream
    rw [if_pos hv]

/-- Witness for `varint_roundtrip` at `v = 16384` and `v = -1`. -/
theorem varint_roundtrip_witness :
    (∃ enc, varintToStream 16384 = .ok enc ∧
      ∀ tail, varintFromStream (enc ++ tail) = .ok ((16384 : Int).toNat, enc.length)) ∧
    varintToStream (-1) = .error .overflowError :=
  ⟨(varint_roundtrip 16384).1 (by decide), (varint_roundtrip (-1)).2 (by decide)⟩

/-! ## Claim C3: `BitStream` byte-operation alignment gate -/

/-- C3: with a non-empty pending-bit buffer every byte-level operation
(`read`, `write`, `seek`, `flush`) fails with `MisalignedFieldError`
and the underlying stream is not touched; with an empty (or absent)
buffer each operation delegates unchanged to the wrapped raw stream. -/
theorem bitStream_byte_ops (s : BitState) (size offset : Int) (whence : Nat) (b : Bytes) :
    (s.misaligned = true →
      BitStream.read s size = .error .misalignedFieldError ∧
      BitStream.write s b = .error .misalignedFieldError ∧
      BitStream.seek s offset whence = .error .misalignedFieldError ∧
      BitStream.flush s = .error .misalignedFieldError) ∧
    (s.misaligned = false →
      BitStream.read s size = .ok ((s.raw.read size).1, { s with raw := (s.raw.read size).2 }) ∧
      BitStream.write s b = .ok ((s.raw.write b).1, { s with raw := (s.raw.write b).2 }) ∧
      BitStream.seek s offset whence =
        (s.raw.seek offset whence).map (fun r => (r.1, { s with raw := r.2 })) ∧
      BitStream.flush s = .ok s) := by
  constructor
  · intro hmis
    refine ⟨?_, ?_, ?_, ?_⟩ <;>
      simp [BitStream.read, BitStream.write, BitStream.seek, BitStream.flush, hmis]
  · intro hal
    refine ⟨?_, ?_, ?_, ?_⟩ <;>
      simp [BitStream.read, BitStream.write, BitStream.seek, BitStream.flush, hal]

/-- Witness for `bitStream_byte_ops`: a buffer holding one pending bit
blocks `read`; an empty buffer lets `read` pass through to the raw
stream. -/
theorem bitStream_byte_ops_witness :
    BitStream.read ⟨⟨[7, 8], 0⟩, some [1]⟩ (-1) = .error .misalignedFieldError ∧
    BitStream.read ⟨⟨[7, 8], 0⟩, Option.none⟩ (-1) =
      .ok (((⟨[7, 8], 0⟩ : MemStream).read (-1)).1,
        ⟨((⟨[7, 8], 0⟩ : MemStream).read (-1)).2, Option.none⟩) := by
  constructor
  · exact ((bitStream_byte_ops ⟨⟨[7, 8], 0⟩, some [1]⟩ (-1) 0 0 []).1 rfl).1
  · exact ((bitStream_byte_ops ⟨⟨[7, 8], 0⟩, Option.none⟩ (-1) 0 0 []).2 rfl).1

/-! ## Claim C4: bit-level round-trip through `BitStream` -/

theorem natToBytesBE_succ (v n : Nat) :
    natToBytesBE v (n + 1) = natToBytesBE (v / 256) n ++ [v % 256] := rfl

theorem bitsOfNat_length (v n : Nat) : (bitsOfNat v n).length = n := by
  simp [bitsOfNat]

theorem bitsOfNat_succ (v n : Nat) :
    bitsOfNat v (n + 1) = (v >>> n &&& 1) :: bitsOfNat v n := by
  unfold bitsOfNat
  rw [List.range_succ_eq_map, List.map_cons, List.map_map]
  congr 1
  apply List.map_congr_left
  intro i hi
  show v >>> (n + 1 - 1 - (i + 1)) &&& 1 = v >>> (n - 1 - i) &&& 1
  rw [(by omega : n + 1 - 1 - (i + 1) = n - 1 - i)]

theorem bitsOfNat_binary (v n : Nat) : ∀ b ∈ bitsOfNat v n, b ≤ 1 := by
  intro b hb
  simp only [bitsOfNat, List.mem_map] at hb
  obtain ⟨i, _, rfl⟩ := hb
  have h := Nat.and_one_is_mod (v >>> (n - 1 - i))
  omega

theorem natFromBits_lt (bits : List Nat) (hb : ∀ b ∈ bits, b ≤ 1) :
    natFromBits bits < 2 ^ bits.length := by
  induction bits with
  | nil => simp [natFromBits]
  | cons x xs ih =>
    have hx : x ≤ 1 := hb x (by simp)
    have hxs := ih fun b h => hb b (by simp [h])
    simp only [natFromBits, List.length_cons]
    rw [Nat.shiftLeft_eq]
    have h1 : x * 2 ^ xs.length ≤ 2 ^ xs.length := by
      calc x * 2 ^ xs.length ≤ 1 * 2 ^ xs.length := Nat.mul_le_mul_right _ hx
        _ = 2 ^ xs.length := one_mul _
    rw [pow_succ]
    omega

theorem natFromBits_bitsOfNat (v n : Nat) : natFromBits (bitsOfNat v n) = v % 2 ^ n := by
  induction n with
  | zero => simp [bitsOfNat, natFromBits, Nat.mod_one]
  | succ n ih =>
    rw [bitsOfNat_succ]
    simp only [natFromBits, bitsOfNat_length]
    rw [ih]
    have h1 : v >>> n &&& 1 = v / 2 ^ n % 2 := by
      rw [Nat.and_one_is_mod, Nat.shiftRight_eq_div_pow]
    have h2 : v % 2 ^ (n + 1) = v % 2 ^ n + 2 ^ n * (v / 2 ^ n % 2) := by
      rw [pow_succ]
      exact Nat.mod_mul
    rw [h1, Nat.shiftLeft_eq, h2]
    ring

theorem bitsOfNat_add_high (b k m : Nat) :
    bitsOfNat (b * 2 ^ k + m) k = bitsOfNat m k := by
  unfold bitsOfNat
  apply List.map_congr_left
  intro i hi
  have hik : i < k := List.mem_range.mp hi
  rw [Nat.shiftRight_eq_div_pow, Nat.shiftRight_eq_div_pow, Nat.and_one_is_mod,
    Nat.and_one_is_mod]
  have hsplit : (2:Nat) ^ k = 2 ^ (k - (k - 1 - i)) * 2 ^ (k - 1 - i) := by
    rw [← pow_add]
    congr 1
    omega
  have hpos : (0:Nat) < 2 ^ (k - 1 - i) := Nat.pos_pow_of_pos _ (by norm_num)
  have hdiv : (b * 2 ^ k + m) / 2 ^ (k - 1 - i) =
      b * 2 ^ (k - (k - 1 - i)) + m / 2 ^ (k - 1 - i) := by
    rw [hsplit, ← mul_assoc, add_comm, Nat.add_mul_div_right _ _ hpos, add_comm]
  rw [hdiv]
  have hks : k - (k - 1 - i) = i + 1 := by omega
  rw [hks, pow_succ]
  have hb2 : b * (2 ^ i * 2) = b * 2 ^ i * 2 := by ring
  rw [hb2]
  omega

theorem bitsOfNat_natFromBits (bits : List Nat) (hb : ∀ b ∈ bits, b ≤ 1) :
    bitsOfNat (natFromBits bits) bits.length = bits := by
  induction bits with
  | nil => simp [bitsOfNat, natFromBits]
  | cons x xs ih =>
    have hx : x ≤ 1 := hb x (by simp)
    have hxs : ∀ b ∈ xs, b ≤ 1 := fun b h => hb b (by simp [h])
    have hlt := natFromBits_lt xs hxs
    simp only [natFromBits, List.length_cons]
    rw [bitsOfNat_succ]
    have hpos : (0:Nat) < 2 ^ xs.length := Nat.pos_pow_of_pos _ (by norm_num)
    congr 1
    · rw [Nat.shiftLeft_eq, Nat.shiftRight_eq_div_pow, Nat.and_one_is_mod]
      have hdiv : (x * 2 ^ xs.length + natFromBits xs) / 2 ^ xs.length = x := by
        rw [add_comm, mul_comm, Nat.add_mul_div_left _ _ hpos,
          Nat.div_eq_of_lt hlt, Nat.zero_add]
      rw [hdiv]
      omega
    · rw [Nat.shiftLeft_eq, bitsOfNat_add_high, ih hxs]

theorem natFromBits_append (a b : List Nat) :
    natFromBits (a ++ b) = natFromBits a * 2 ^ b.length + natFromBits b := by
  induction a with
  | nil => simp [natFromBits]
  | cons x xs ih =>
    simp only [List.cons_append, natFromBits, List.append_eq, List.length_append, ih]
    rw [Nat.shiftLeft_eq, Nat.shiftLeft_eq, pow_add]
    ring

theorem natToBytesBE_split (a k : Nat) (ha : a < 256) :
    ∀ y < 256 ^ k, natToBytesBE (a * 256 ^ k + y) (k + 1) = a :: natToBytesBE y k := by
  induction k with
  | zero =>
    intro y hy
    have hy0 : y = 0 := by omega
    subst hy0
    simp [natToBytesBE, Nat.mod_eq_of_lt ha, Nat.div_eq_of_lt ha]
  | succ k ih =>
    intro y hy
    have hdm : y / 256 * 256 + y % 256 = y := by
      have := Nat.div_add_mod y 256
      omega
    have hN : a * 256 ^ (k + 1) + y = (a * 256 ^ k + y / 256) * 256 + y % 256 := by
      calc a * 256 ^ (k + 1) + y
          = a * (256 ^ k * 256) + (y / 256 * 256 + y % 256) := by rw [pow_succ, hdm]
        _ = (a * 256 ^ k + y / 256) * 256 + y % 256 := by ring
    have hdiv : (a * 256 ^ (k + 1) + y) / 256 = a * 256 ^ k + y / 256 := by
      rw [hN]
      omega
    have hmod : (a * 256 ^ (k + 1) + y) % 256 = y % 256 := by
      rw [hN]
      omega
    have hy2 : y / 256 < 256 ^ k := by
      rw [Nat.div_lt_iff_lt_mul (by norm_num : (0:Nat) < 256)]
      rw [pow_succ] at hy
      exact hy
    rw [natToBytesBE_succ, hdiv, hmod, ih (y / 256) hy2, natToBytesBE_succ]
    simp [List.cons_append]

theorem bytesToBits_append (a b : Bytes) :
    bytesToBits (a ++ b) = bytesToBits a ++ bytesToBits b := by
  induction a with
  | nil => simp [bytesToBits]
  | cons x xs ih => simp [bytesToBits, ih]

theorem bytesToBits_length (bs : Bytes) : (bytesToBits bs).length = 8 * bs.length := by
  induction bs with
  | nil => simp [bytesToBits]
  | cons x xs ih =>
    simp only [bytesToBits, List.length_append, bitsOfNat_length, List.length_cons, ih]
    ring

theorem bytesToBits_natToBytesBE_aux (k : Nat) :
    ∀ bits : List Nat, (∀ b ∈ bits, b ≤ 1) → bits.length = 8 * k →
      bytesToBits (natToBytesBE (natFromBits bits) k) = bits := by
  induction k with
  | zero =>
    intro bits _ hlen
    have : bits = [] := List.eq_nil_of_length_eq_zero (by omega)
    subst this
    simp [natToBytesBE, bytesToBits]
  | succ k ih =>
    intro bits hb hlen
    have hbits := (List.take_append_drop 8 bits).symm
    have ht8len : (bits.take 8).length = 8 := by rw [List.length_take]; omega
    have hdlen : (bits.drop 8).length = 8 * k := by rw [List.length_drop]; omega
    have hbt8 : ∀ b ∈ bits.take 8, b ≤ 1 := fun b h => hb b (List.mem_of_mem_take h)
    have hbd : ∀ b ∈ bits.drop 8, b ≤ 1 := fun b h => hb b (List.mem_of_mem_drop h)
    have ha : natFromBits (bits.take 8) < 256 := by
      have := natFromBits_lt (bits.take 8) hbt8
      rw [ht8len] at this
      norm_num at this
      exact this
    have hy : natFromBits (bits.drop 8) < 256 ^ k := by
      have := natFromBits_lt (bits.drop 8) hbd
      rw [hdlen] at this
      calc natFromBits (bits.drop 8) < 2 ^ (8 * k) := this
        _ = 256 ^ k := by rw [pow_mul]; norm_num
    conv_lhs => rw [hbits]
    conv_rhs => rw [hbits]
    rw [natFromBits_append, hdlen]
    have h2 : (2:Nat) ^ (8 * k) = 256 ^ k := by rw [pow_mul]; norm_num
    rw [h2, natToBytesBE_split _ k ha _ hy]
    simp only [bytesToBits]
    congr 1
    · have := bitsOfNat_natFromBits (bits.take 8) hbt8
      rw [ht8len] at this
      exact this
    · exact ih (bits.drop 8) hbd hdlen

/-- Packing a byte-multiple of bits into bytes and expanding again is
the identity. -/
theorem bytesToBits_natToBytesBE (bits : List Nat) (hb : ∀ b ∈ bits, b ≤ 1)
    (h8 : bits.length % 8 = 0) :
    bytesToBits (natToBytesBE (natFromBits bits) (bits.length / 8)) = bits :=
  bytesToBits_natToBytesBE_aux (bits.length / 8) bits hb (by omega)

/-- Taking `needed` bits in two stages — first from the pending chunk,
then from the rest — equals taking them at once. -/
theorem take_chunk_append {α : Type} (p B : List α) (needed : Nat) :
    p.take (min needed p.length) ++
      ((p.drop (min needed p.length) ++ B).take (needed - min needed p.length)) =
    (p ++ B).take needed := by
  by_cases h : needed ≤ p.length
  · rw [min_eq_left h, Nat.sub_self, List.take_zero, List.append_nil,
      List.take_append_eq_append_take, Nat.sub_eq_zero_of_le h, List.take_zero,
      List.append_nil]
  · push_neg at h
    rw [min_eq_right h.le, List.take_length, List.drop_length, List.nil_append,
      List.take_append_eq_append_take, List.take_of_length_le h.le]

/-- One step of the read loop when the pending buffer holds bits. -/
theorem readBitsAux_cons (s : BitState) (acc : List Nat) (rc needed : Nat)
    (h0 : needed ≠ 0) (hd : Nat) (tl : List Nat)
    (hp : s.bitsRemaining.getD [] = hd :: tl) :
    BitStream.readBitsAux s acc rc needed =
      BitStream.readBitsAux
        { s with bitsRemaining := some ((hd :: tl).drop (min needed (hd :: tl).length)) }
        (acc ++ (hd :: tl).take (min needed (hd :: tl).length)) rc
        (needed - min needed (hd :: tl).length) := by
  rw [BitStream.readBitsAux, dif_neg h0, hp]

/-- One step of the read loop when the pending buffer is empty and a
raw byte is available: refill from that byte and consume from it. -/
theorem readBitsAux_refill (s : BitState) (acc : List Nat) (rc needed : Nat)
    (h0 : needed ≠ 0) (db : Nat) (rest : List Nat)
    (hp : s.bitsRemaining.getD [] = [])
    (hdata : s.raw.data.drop s.raw.pos = db :: rest) :
    BitStream.readBitsAux s acc rc needed =
      BitStream.readBitsAux
        { raw := { s.raw with pos := s.raw.pos + 1 },
          bitsRemaining :=
            some ((bitsOfNat db 8).drop (min needed (bitsOfNat db 8).length)) }
        (acc ++ (bitsOfNat db 8).take (min needed (bitsOfNat db 8).length)) (rc + 1)
        (needed - min needed (bitsOfNat db 8).length) := by
  have hread : s.raw.read 1 = ([db], { s.raw with pos := s.raw.pos + 1 }) := by
    rw [MemStream.read, hdata]
    norm_num
  rw [BitStream.readBitsAux, dif_neg h0, hp, hread]

/-- The read loop delivers the next `needed` available bits, whatever
mix of pending buffer and raw bytes they come from. -/
theorem readBitsAux_spec (needed : Nat) :
    ∀ (s : BitState) (acc : List Nat) (rc : Nat),
      needed ≤ (availBits s).length →
      ∃ rc' s', BitStream.readBitsAux s acc rc needed =
        .ok (acc ++ (availBits s).take needed, rc', s') := by
  induction needed using Nat.strong_induction_on with
  | _ needed ih =>
    intro s acc rc hle
    by_cases h0 : needed = 0
    · subst h0
      refine ⟨rc, s, ?_⟩
      rw [BitStream.readBitsAux]
      simp
    · cases hp : s.bitsRemaining.getD [] with
      | nil =>
        have havail : availBits s = bytesToBits (s.raw.data.drop s.raw.pos) := by
          rw [availBits, hp, List.nil_append]
        cases hdata : s.raw.data.drop s.raw.pos with
        | nil =>
          exfalso
          rw [havail, hdata] at hle
          simp [bytesToBits] at hle
          omega
        | cons db rest =>
          have hrest : rest = s.raw.data.drop (s.raw.pos + 1) := by
            have h1 : (s.raw.data.drop s.raw.pos).drop 1 =
                s.raw.data.drop (s.raw.pos + 1) := by
              rw [List.drop_drop]
            rw [hdata] at h1
            simpa using h1
          have ht8 : (bitsOfNat db 8).length = 8 := bitsOfNat_length db 8
          set t := min needed (bitsOfNat db 8).length with ht
          have htpos : 1 ≤ t := by rw [ht, ht8]; omega
          have htle : t ≤ needed := by rw [ht]; exact min_le_left _ _
          set s2 : BitState :=
            { raw := { s.raw with pos := s.raw.pos + 1 },
              bitsRemaining := some ((bitsOfNat db 8).drop t) } with hs2
          have havail2 : availBits s2 = (bitsOfNat db 8).drop t ++
              bytesToBits (s.raw.data.drop (s.raw.pos + 1)) := by
            rw [hs2, availBits]
            simp
          have hexp : availBits s = bitsOfNat db 8 ++
              bytesToBits (s.raw.data.drop (s.raw.pos + 1)) := by
            rw [havail, hdata, bytesToBits, hrest]
          have hle2 : needed - t ≤ (availBits s2).length := by
            rw [havail2, List.length_append, List.length_drop, ht8]
            rw [hexp, List.length_append, ht8] at hle
            omega
          obtain ⟨rc', s', hrec⟩ :=
            ih (needed - t) (by omega) s2 (acc ++ (bitsOfNat db 8).take t) (rc + 1) hle2
          refine ⟨rc', s', ?_⟩
          rw [readBitsAux_refill s acc rc needed h0 db rest hp hdata, ← ht, ← hs2, hrec]
          have hlists : acc ++ (bitsOfNat db 8).take t ++ (availBits s2).take (needed - t) =
              acc ++ (availBits s).take needed := by
            rw [List.append_assoc, havail2, hexp, ht]
            congr 1
            exact take_chunk_append _ _ _
          rw [hlists]
      | cons hd tl =>
        have hexp : availBits s = (hd :: tl) ++
            bytesToBits (s.raw.data.drop s.raw.pos) := by
          rw [availBits, hp]
        set t := min needed (hd :: tl).length with ht
        have htpos : 1 ≤ t := by
          rw [ht]
          simp only [List.length_cons]
          omega
        have htle : t ≤ needed := by rw [ht]; exact min_le_left _ _
        set s2 : BitState := { s with bitsRemaining := some ((hd :: tl).drop t) } with hs2
        have havail2 : availBits s2 = (hd :: tl).drop t ++
            bytesToBits (s.raw.data.drop s.raw.pos) := by
          rw [hs2, availBits]
          simp
        have hle2 : needed - t ≤ (availBits s2).length := by
          rw [havail2, List.length_append, List.length_drop]
          rw [hexp, List.length_append] at hle
          omega
        obtain ⟨rc', s', hrec⟩ :=
          ih (needed - t) (by omega) s2 (acc ++ (hd :: tl).take t) rc hle2
        refine ⟨rc', s', ?_⟩
        rw [readBitsAux_cons s acc rc needed h0 hd tl hp, ← ht, ← hs2, hrec]
        have hlists : acc ++ (hd :: tl).take t ++ (availBits s2).take (needed - t) =
            acc ++ (availBits s).take needed := by
          rw [List.append_assoc, havail2, hexp, ht]
          congr 1
          exact take_chunk_append _ _ _
        rw [hlists]

/-- Writing `n` bits of `v` into a fresh `BitStream` over an empty
`BytesIO` and finalizing leaves, as the stream contents, exactly the
`n` MSB-first bits of `v` zero-padded to a byte boundary. -/
theorem writeBits_finalize_spec (v n : Nat) :
    ∃ w1 s1 w2 s2,
      BitStream.writeBits ⟨⟨[], 0⟩, Option.none⟩ v n = .ok (w1, s1) ∧
      BitStream.finalize s1 = .ok (w2, s2) ∧
      bytesToBits s2.raw.data =
        bitsOfNat v n ++ List.replicate ((8 - n % 8) % 8) 0 := by
  have hbitslen : (bitsOfNat v n).length = n := bitsOfNat_length v n
  have hsplitle : n / 8 * 8 ≤ n := Nat.div_mul_le_self n 8
  set A := (bitsOfNat v n).take (n / 8 * 8) with hAdef
  set B := (bitsOfNat v n).drop (n / 8 * 8) with hBdef
  have hAlen : A.length = n / 8 * 8 := by
    rw [hAdef, List.length_take, hbitslen]
    omega
  have hBlen : B.length = n % 8 := by
    rw [hBdef, List.length_drop, hbitslen]
    omega
  have hA8 : A.length % 8 = 0 := by rw [hAlen]; exact Nat.mul_mod_left _ _
  have hAbin : ∀ b ∈ A, b ≤ 1 :=
    fun b h => bitsOfNat_binary v n b (List.mem_of_mem_take h)
  have hBbin : ∀ b ∈ B, b ≤ 1 :=
    fun b h => bitsOfNat_binary v n b (List.mem_of_mem_drop h)
  have hApack := bytesToBits_natToBytesBE A hAbin hA8
  set bytes1 := natToBytesBE (natFromBits A) (A.length / 8) with hb1def
  have hw : BitStream.writeBits ⟨⟨[], 0⟩, Option.none⟩ v n =
      .ok (bytes1.length, ⟨⟨bytes1, bytes1.length⟩, some B⟩) := by
    rw [BitStream.writeBits]
    simp only [Option.getD_none, List.nil_append, hbitslen, ← hAdef, ← hBdef]
    rw [BitStream.writeBitsRaw]
    rw [if_neg (by simp [hA8])]
    by_cases hA : A.isEmpty
    · rw [if_pos hA]
      have hAnil : A = [] := List.isEmpty_iff.mp hA
      have hb1nil : bytes1 = [] := by
        rw [hb1def, hAnil]
        simp [natFromBits, natToBytesBE]
      rw [hb1nil]
      rfl
    · rw [if_neg hA]
      rw [MemStream.write, ← hb1def]
      simp
  by_cases hB : B.isEmpty
  · -- no pending bits: finalize writes nothing, `n` is a byte multiple
    have hBnil : B = [] := List.isEmpty_iff.mp hB
    have hmod0 : n % 8 = 0 := by rw [← hBlen, hBnil]; rfl
    have hAfull : A = bitsOfNat v n := by
      rw [hAdef]
      apply List.take_of_length_le
      rw [hbitslen]
      omega
    refine ⟨bytes1.length, ⟨⟨bytes1, bytes1.length⟩, some B⟩, 0,
      ⟨⟨bytes1, bytes1.length⟩, some B⟩, hw, ?_, ?_⟩
    · rw [hBnil]
      rw [BitStream.finalize]
      simp
    · show bytesToBits bytes1 = _
      rw [hAfull] at hApack
      rw [hApack, hmod0]
      simp
  · -- pending bits: finalize pads them to one byte and appends it
    have hmodpos : n % 8 ≠ 0 := by
      intro hc
      rw [← hBlen] at hc
      exact hB (List.isEmpty_iff_length_eq_zero.mpr hc)
    set padded := B ++ List.replicate ((8 - B.length % 8) % 8) 0 with hpaddef
    have hpadlen : padded.length = 8 := by
      rw [hpaddef, List.length_append, List.length_replicate, hBlen]
      omega
    have hpadbin : ∀ b ∈ padded, b ≤ 1 := by
      intro b hb
      rw [hpaddef] at hb
      rcases List.mem_append.mp hb with h | h
      · exact hBbin b h
      · rw [List.eq_of_mem_replicate h]
        omega
    have hpadpack := bytesToBits_natToBytesBE padded hpadbin (by rw [hpadlen])
    set bytes2 := natToBytesBE (natFromBits padded) (padded.length / 8) with hb2def
    have hfin : BitStream.finalize ⟨⟨bytes1, bytes1.length⟩, some B⟩ =
        .ok (bytes2.length, ⟨⟨bytes1 ++ bytes2, bytes1.length + bytes2.length⟩,
          Option.none⟩) := by
      rw [BitStream.finalize]
      simp only [hB, Bool.false_eq_true, if_false, ← hpaddef]
      rw [BitStream.writeBitsRaw]
      rw [if_neg (by rw [hpadlen]; simp)]
      rw [if_neg (by rw [List.isEmpty_iff]; intro hc; rw [hc] at hpadlen; simp at hpadlen)]
      rw [MemStream.write, ← hb2def]
      simp only [List.take_of_length_le (le_refl bytes1.length), Nat.sub_self,
        List.replicate_zero, List.append_nil, List.nil_append,
        List.drop_eq_nil_of_le (Nat.le_add_right _ _)]
      rfl
    refine ⟨bytes1.length, _, bytes2.length, _, hw, hfin, ?_⟩
    show bytesToBits (bytes1 ++ bytes2) = _
    rw [bytesToBits_append, hApack, hpadpack, hpaddef]
    rw [← List.append_assoc, hAdef, hBdef, List.take_append_drop]
    congr 2
    rw [List.length_drop, hbitslen]
    omega

/-- C4: for every bit count `n > 0` and value `0 ≤ v < 2 ^ n`, writing
`v` with `write_bits(v, n)` into a fresh `BitStream` over an empty
stream, finalizing, and reading `n` bits back with `read_bits(n)` from
the bytes so produced yields exactly `v`; moreover bits are MSB-first
within a byte — the first bit `read_bits` extracts from any byte `b`
is bit 7 (`b >> 7 & 1`). -/
theorem bitStream_bit_roundtrip (n v : Nat) (_hn : 0 < n) (hv : v < 2 ^ n) :
    (∃ w1 s1 w2 s2 rc s3,
      BitStream.writeBits ⟨⟨[], 0⟩, Option.none⟩ v n = .ok (w1, s1) ∧
      BitStream.finalize s1 = .ok (w2, s2) ∧
      BitStream.readBits ⟨⟨s2.raw.data, 0⟩, Option.none⟩ n = .ok (v, rc, s3)) ∧
    (∀ b : Nat, ∃ rc1 s4,
      BitStream.readBits ⟨⟨[b], 0⟩, Option.none⟩ 1 = .ok (b >>> 7 &&& 1, rc1, s4)) := by
  constructor
  · obtain ⟨w1, s1, w2, s2, hw, hf, hdata⟩ := writeBits_finalize_spec v n
    have havail : availBits ⟨⟨s2.raw.data, 0⟩, Option.none⟩ = bytesToBits s2.raw.data := by
      rw [availBits]
      simp
    have hlenavail : n ≤ (availBits ⟨⟨s2.raw.data, 0⟩, Option.none⟩).length := by
      rw [havail, hdata, List.length_append, bitsOfNat_length]
      omega
    obtain ⟨rc', s', hread⟩ :=
      readBitsAux_spec n ⟨⟨s2.raw.data, 0⟩, Option.none⟩ [] 0 hlenavail
    refine ⟨w1, s1, w2, s2, rc', s', hw, hf, ?_⟩
    rw [BitStream.readBits, hread]
    have htake : (availBits ⟨⟨s2.raw.data, 0⟩, Option.none⟩).take n = bitsOfNat v n := by
      rw [havail, hdata, List.take_left' (bitsOfNat_length v n)]
    simp only [Except.map, List.nil_append, htake]
    rw [natFromBits_bitsOfNat, Nat.mod_eq_of_lt hv]
  · intro b
    have havail : availBits ⟨⟨[b], 0⟩, Option.none⟩ = bitsOfNat b 8 := by
      rw [availBits]
      simp [bytesToBits]
    have hle : 1 ≤ (availBits ⟨⟨[b], 0⟩, Option.none⟩).length := by
      rw [havail, bitsOfNat_length]
      omega
    obtain ⟨rc', s', hread⟩ := readBitsAux_spec 1 ⟨⟨[b], 0⟩, Option.none⟩ [] 0 hle
    refine ⟨rc', s', ?_⟩
    rw [BitStream.readBits, hread]
    have hcons : bitsOfNat b 8 = (b >>> 7 &&& 1) :: bitsOfNat b 7 := bitsOfNat_succ b 7
    have htake : (availBits ⟨⟨[b], 0⟩, Option.none⟩).take 1 = [b >>> 7 &&& 1] := by
      rw [havail, hcons]
      rfl
    simp only [Except.map, List.nil_append, htake]
    have hval : natFromBits [b >>> 7 &&& 1] = b >>> 7 &&& 1 := by
      simp [natFromBits]
    rw [hval]

/-- Witness for `bitStream_bit_roundtrip` at `n = 3`, `v = 5`. -/
theorem bitStream_bit_roundtrip_witness :
    (∃ w1 s1 w2 s2 rc s3,
      BitStream.writeBits ⟨⟨[], 0⟩, Option.none⟩ 5 3 = .ok (w1, s1) ∧
      BitStream.finalize s1 = .ok (w2, s2) ∧
      BitStream.readBits ⟨⟨s2.raw.data, 0⟩, Option.none⟩ 3 = .ok (5, rc, s3)) ∧
    (∀ b : Nat, ∃ rc1 s4,
      BitStream.readBits ⟨⟨[b], 0⟩, Option.none⟩ 1 = .ok (b >>> 7 &&& 1, rc1, s4)) :=
  bitStream_bit_roundtrip 3 5 (by decide) (by decide)

/-! ## Claims C2 and C9: `Substream` -/

theorem checkBounds_length (s : SubState) :
    (Substream.checkBounds s).length = s.length := by
  rw [Substream.checkBounds]
  split_ifs with h1
  · rfl
  · split
    · split_ifs <;> rfl
    · rfl

theorem checkBounds_position (s : SubState) (L : Nat) (hL : s.length = some L) :
    (Substream.checkBounds s).position = min (L : Int) (max 0 s.position) := by
  rw [Substream.checkBounds]
  split_ifs with h1
  · dsimp only
    omega
  · split
    · rename_i L2 hl2
      rw [hL] at hl2
      injection hl2 with hLL
      subst hLL
      split_ifs with h2
      · dsimp only
        omega
      · omega
    · rename_i hl2
      rw [hL] at hl2
      exact absurd hl2 (by simp)

theorem updateFromRaw_length (s : SubState) :
    (Substream.updateFromRaw s).length = s.length := by
  rw [Substream.updateFromRaw, checkBounds_length]

theorem updateFromRaw_position (s : SubState) (L : Nat) (hL : s.length = some L) :
    (Substream.updateFromRaw s).position =
      min (L : Int) (max 0 ((s.raw.pos : Int) - (s.start : Int))) := by
  rw [Substream.updateFromRaw, checkBounds_position _ L (by rw [hL] : _)]

theorem updatePosition_length (s : SubState) :
    (Substream.updatePosition s).length = s.length := by
  rw [Substream.updatePosition, checkBounds_length, updateFromRaw_length]

theorem updatePosition_position (s : SubState) (L : Nat) (hL : s.length = some L) :
    (Substream.updatePosition s).position =
      min (L : Int) (max 0 ((s.raw.pos : Int) - (s.start : Int))) := by
  rw [Substream.updatePosition,
    checkBounds_position _ L (by rw [updateFromRaw_length, hL]),
    updateFromRaw_position s L hL]
  omega

/-- `tell` always lands in `[0, length]`, whatever the state. -/
theorem substream_tell_range (s : SubState) (L : Nat) (hL : s.length = some L) :
    0 ≤ (Substream.tell s).1 ∧ (Substream.tell s).1 ≤ (L : Int) := by
  rw [Substream.tell]
  simp only [updatePosition_position s L hL]
  omega

theorem substream_tell_position (s : SubState) (L : Nat) (hL : s.length = some L) :
    (Substream.tell s).1 = min (L : Int) (max 0 ((s.raw.pos : Int) - (s.start : Int))) := by
  rw [Substream.tell]
  simp only [updatePosition_position s L hL]

theorem substream_cap_eval (s : SubState) (L : Nat) (size : Int) (hL : s.length = some L) :
    Substream.cap s size =
      if size < 0 then (L : Int) - s.position else min ((L : Int) - s.position) size := by
  rw [Substream.cap, hL]

theorem memStream_read_length (m : MemStream) (c : Int) (hc : 0 ≤ c) :
    (((m.read c).1).length : Int) ≤ c := by
  rw [MemStream.read]
  dsimp only
  rw [if_neg (not_lt.mpr hc)]
  have h := List.length_take_le c.toNat (m.data.drop m.pos)
  omega

theorem substream_read_length_state (s : SubState) (size : Int) :
    (Substream.read s size).2.length = s.length := by
  rw [Substream.read]
  dsimp only
  rw [updatePosition_length]

theorem substream_writeA_ok (s : SubState) (b : Bytes) :
    ∃ k s', Substream.writeA s b = .ok (k, s') ∧ s'.length = s.length := by
  rw [Substream.writeA]
  exact ⟨_, _, rfl, by simp only [updatePosition_length]⟩

theorem substream_writeB_length (s : SubState) (b : Bytes) (k : Nat) (s' : SubState)
    (h : Substream.writeB s b = .ok (k, s')) : s'.length = s.length := by
  rw [Substream.writeB] at h
  dsimp only at h
  split_ifs at h with hc
  · cases h
    dsimp only
    rw [updatePosition_length]

/-- C2, counterexample: on a bounded substream, `seek(-1, SEEK_SET)`
raises `ValueError` — the negative target is *not* clamped to 0 as the
claim asserts of all whence values. -/
theorem substream_seek_counterexample :
    (-1 : Int) < 0 ∧
    Substream.seek ⟨⟨[0, 1, 2, 3, 4, 5], 2⟩, 2, some 3, 0⟩ (-1) 0 =
      .error .valueError :=
  ⟨by decide, rfl⟩

/-- C2, amended, for a substream bounded by `length = L` over a
seekable raw stream:
* `tell()` always returns a position in `[0, L]`;
* a read returns at most `L` minus the current position bytes and
  leaves the observed position in `[0, L]`;
* a `SEEK_SET` seek to a non-negative offset, a `SEEK_CUR` seek, and a
  `SEEK_END` seek all return the target clamped into `[0, L]` — but a
  negative `SEEK_SET` offset raises `ValueError` instead of clamping;
* both `write` variants leave the observed position in `[0, L]`. -/
theorem substream_position_invariant (s : SubState) (L : Nat) (size offset : Int)
    (b : Bytes) (hL : s.length = some L) :
    (0 ≤ (Substream.tell s).1 ∧ (Substream.tell s).1 ≤ (L : Int)) ∧
    (((Substream.read s size).1.length : Int) ≤ (L : Int) - (Substream.tell s).1 ∧
      0 ≤ (Substream.tell (Substream.read s size).2).1 ∧
      (Substream.tell (Substream.read s size).2).1 ≤ (L : Int)) ∧
    (0 ≤ offset → ∃ s₂, Substream.seek s offset 0 =
      .ok (min (L : Int) (max 0 offset), s₂)) ∧
    (offset < 0 → Substream.seek s offset 0 = .error .valueError) ∧
    (∃ s₂, Substream.seek s offset 1 =
      .ok (min (L : Int) (max 0 ((Substream.updateFromRaw s).position + offset)), s₂)) ∧
    (∃ s₂, Substream.seek s offset 2 =
      .ok (min (L : Int) (max 0 ((L : Int) + offset)), s₂)) ∧
    (∃ k s₂, Substream.writeA s b = .ok (k, s₂) ∧
      0 ≤ (Substream.tell s₂).1 ∧ (Substream.tell s₂).1 ≤ (L : Int)) ∧
    (∀ k s₂, Substream.writeB s b = .ok (k, s₂) →
      0 ≤ (Substream.tell s₂).1 ∧ (Substream.tell s₂).1 ≤ (L : Int)) := by
  refine ⟨substream_tell_range s L hL, ⟨?_, ?_⟩, ?_, ?_, ?_, ?_, ?_, ?_⟩
  · -- read caps at `L - position`
    rw [Substream.read, Substream.tell]
    dsimp only
    have hlen1 : (Substream.updatePosition s).length = some L := by
      rw [updatePosition_length, hL]
    have hpos1 := updatePosition_position s L hL
    rw [substream_cap_eval _ L _ hlen1]
    have hposrange : 0 ≤ (Substream.updatePosition s).position ∧
        (Substream.updatePosition s).position ≤ (L : Int) := by
      rw [hpos1]
      omega
    split_ifs with hsz
    · have := memStream_read_length (Substream.updatePosition s).raw
        ((L : Int) - (Substream.updatePosition s).position) (by omega)
      omega
    · have hc : (0:Int) ≤ min ((L : Int) - (Substream.updatePosition s).position) size := by
        omega
      have := memStream_read_length (Substream.updatePosition s).raw
        (min ((L : Int) - (Substream.updatePosition s).position) size) hc
      omega
  · exact ⟨(substream_tell_range _ L (by rw [substream_read_length_state, hL])).1,
      (substream_tell_range _ L (by rw [substream_read_length_state, hL])).2⟩
  · intro hoff
    rw [Substream.seek, if_neg (not_lt.mpr hoff), Substream.seekFinish]
    dsimp only
    rw [checkBounds_position _ L (by dsimp only; exact hL)]
    exact ⟨_, rfl⟩
  · intro hoff
    rw [Substream.seek, if_pos hoff]
  · rw [Substream.seek, Substream.seekFinish]
    dsimp only
    rw [checkBounds_position _ L (by dsimp only; rw [updateFromRaw_length, hL])]
    dsimp only
    rw [(by omega : min (L : Int)
      (max 0 (max 0 ((Substream.updateFromRaw s).position + offset))) =
      min (L : Int) (max 0 ((Substream.updateFromRaw s).position + offset)))]
    exact ⟨_, rfl⟩
  · rw [Substream.seek]
    rw [hL]
    dsimp only
    rw [Substream.seekFinish]
    dsimp only
    rw [checkBounds_position _ L (by dsimp only)]
    dsimp only
    rw [(by omega : min (L : Int) (max 0 (max 0 ((L : Int) + offset))) =
      min (L : Int) (max 0 ((L : Int) + offset)))]
    exact ⟨_, rfl⟩
  · obtain ⟨k, s₂, hw, hlen2⟩ := substream_writeA_ok s b
    exact ⟨k, s₂, hw, (substream_tell_range s₂ L (by rw [hlen2, hL])).1,
      (substream_tell_range s₂ L (by rw [hlen2, hL])).2⟩
  · intro k s₂ hw
    have hlen2 := substream_writeB_length s b k s₂ hw
    exact ⟨(substream_tell_range s₂ L (by rw [hlen2, hL])).1,
      (substream_tell_range s₂ L (by rw [hlen2, hL])).2⟩

/-- Witness for `substream_position_invariant` at a concrete bounded
substream. -/
theorem substream_position_invariant_witness :
    (0 ≤ (Substream.tell ⟨⟨[0, 1, 2, 3, 4], 1⟩, 1, some 3, 0⟩).1 ∧
      (Substream.tell ⟨⟨[0, 1, 2, 3, 4], 1⟩, 1, some 3, 0⟩).1 ≤ (3 : Int)) ∧
    (∃ s₂, Substream.seek ⟨⟨[0, 1, 2, 3, 4], 1⟩, 1, some 3, 0⟩ 7 0 =
      .ok (min (3 : Int) (max 0 7), s₂)) := by
  refine ⟨(substream_position_invariant ⟨⟨[0, 1, 2, 3, 4], 1⟩, 1, some 3, 0⟩ 3 0 7
    [] rfl).1, ?_⟩
  exact (substream_position_invariant ⟨⟨[0, 1, 2, 3, 4], 1⟩, 1, some 3, 0⟩ 3 0 7
    [] rfl).2.2.1 (by decide)

/-- C9, counterexample: the two shipped `Substream.write`
implementations are *not* observationally equivalent — on the same
bounded substream (length 2, position 0) and the same 3-byte payload,
`parsing/substream.py` (`writeA`) silently truncates and reports 2
bytes written, while `parsing/streams.py` (`writeB`) raises
`IOError`. -/
theorem substream_write_divergence_counterexample :
    Substream.writeA ⟨⟨[9, 9], 0⟩, 0, some 2, 0⟩ [1, 2, 3] =
      .ok (2, ⟨⟨[1, 2], 2⟩, 0, some 2, 2⟩) ∧
    Substream.writeB ⟨⟨[9, 9], 0⟩, 0, some 2, 0⟩ [1, 2, 3] =
      .error .ioError :=
  ⟨rfl, rfl⟩

/-- C9, amended: `read`, `seek` and `tell` are textually identical in
the two files and are modelled here by the same functions, so the two
implementations can differ only in `write`: they agree whenever the
payload fits the remaining capacity, while on an oversize payload the
`parsing/streams.py` version raises `IOError` and the
`parsing/substream.py` version truncates and succeeds. -/
theorem substream_write_impls (s : SubState) (b : Bytes) :
    (¬ Substream.cap (Substream.updatePosition s) (b.length : Int) < (b.length : Int) →
      Substream.writeB s b = Substream.writeA s b) ∧
    (Substream.cap (Substream.updatePosition s) (b.length : Int) < (b.length : Int) →
      Substream.writeB s b = .error .ioError ∧
      ∃ k s₂, Substream.writeA s b = .ok (k, s₂)) := by
  constructor
  · intro h
    rw [Substream.writeB, Substream.writeA]
    dsimp only
    rw [if_neg h]
  · intro h
    refine ⟨?_, ?_⟩
    · rw [Substream.writeB]
      dsimp only
      rw [if_pos h]
    · rw [Substream.writeA]
      exact ⟨_, _, rfl⟩

/-- Witness for `substream_write_impls`: a fitting write agrees, and an
oversize write diverges, at concrete bounded substreams. -/
theorem substream_write_impls_witness :
    Substream.writeB ⟨⟨[9, 9, 9], 0⟩, 0, some 3, 0⟩ [1, 2] =
      Substream.writeA ⟨⟨[9, 9, 9], 0⟩, 0, some 3, 0⟩ [1, 2] ∧
    Substream.writeB ⟨⟨[9, 9], 0⟩, 0, some 2, 1⟩ [1, 2, 3] = .error .ioError ∧
    (∃ k s₂, Substream.writeA ⟨⟨[9, 9], 0⟩, 0, some 2, 1⟩ [1, 2, 3] = .ok (k, s₂)) :=
  ⟨(substream_write_impls ⟨⟨[9, 9, 9], 0⟩, 0, some 3, 0⟩ [1, 2]).1 (by decide),
   ((substream_write_impls ⟨⟨[9, 9], 0⟩, 0, some 2, 1⟩ [1, 2, 3]).2 (by decide)).1,
   ((substream_write_impls ⟨⟨[9, 9], 0⟩, 0, some 2, 1⟩ [1, 2, 3]).2 (by decide)).2⟩

/-- C7, counterexample: a two-element list written through a
`count=3` array is rejected with `WriteError` by the
`fields/wrapped.py` implementation, but the `fields/base_field.py`
implementation (whose `to_stream` carries `# TODO: handle length and
count`) silently writes the mismatched list. -/
theorem arrayField_count_counterexample :
    arrayToStreamWrapped (.integerF { length := 1, byte_order := some .big })
      (some 3) none (some [.intV 1, .intV 2]) = .error .writeError ∧
    arrayToStreamBaseField (.integerF { length := 1, byte_order := some .big })
      (some [.intV 1, .intV 2]) = .ok [1, 2] :=
  ⟨rfl, rfl⟩

/-- C7, amended: in the `fields/wrapped.py` implementation,
`to_stream` with `count` set fails with `WriteError` whenever the
element count differs from `count`; the `fields/base_field.py`
implementation ignores `count` entirely and encodes every element
unconditionally. -/
theorem arrayField_count_mismatch (base : FieldSpec) (c : Nat) (value : List Value)
    (h : value.length ≠ c) :
    arrayToStreamWrapped base (some c) none (some value) = .error .writeError ∧
    arrayToStreamBaseField base (some value) = encodeItems base value := by
  refine ⟨?_, rfl⟩
  rw [arrayToStreamWrapped]
  dsimp only [Option.getD]
  rw [if_pos h]

/-- Witness for `arrayField_count_mismatch` at a concrete base field
and element list. -/
theorem arrayField_count_mismatch_witness :
    arrayToStreamWrapped .varintF (some 2) none (some [.intV 5]) = .error .writeError ∧
    arrayToStreamBaseField .varintF (some [.intV 5]) = encodeItems .varintF [.intV 5] :=
  arrayField_count_mismatch .varintF 2 [.intV 5] (by decide)

theorem validBytes_take (bs : Bytes) (n : Nat) (h : ValidBytes bs) :
    ValidBytes (bs.take n) := fun b hb => h b (List.take_subset n bs hb)

theorem validBytes_drop (bs : Bytes) (n : Nat) (h : ValidBytes bs) :
    ValidBytes (bs.drop n) := fun b hb => h b (List.drop_subset n bs hb)

/-- Inversion of a successful strict terminator-free, padding-free
fixed-length read: the value is exactly the first `N` bytes of the
stream, `N` bytes were consumed, and the stream held at least `N`
bytes. -/
theorem bytesFromStreamFixed_strict_inv (cfg : BytesFieldCfg) (N : Nat)
    (stream bs : Bytes) (n : Nat) (hlen : cfg.length = (N : Int))
    (hterm : cfg.terminator = Option.none) (hpad : cfg.padding = Option.none)
    (hstrict : cfg.strict = true)
    (h : bytesFromStreamFixed cfg stream = .ok (bs, n)) :
    bs = stream.take N ∧ n = N ∧ N ≤ stream.length := by
  rw [bytesFromStreamFixed] at h
  simp only [hlen, hterm, hpad, hstrict, Int.toNat_natCast,
    if_neg (not_lt.mpr (Int.ofNat_nonneg N))] at h
  split_ifs at h with hcond
  cases h
  have hle : N ≤ stream.length := by
    rcases Nat.lt_or_ge stream.length N with hc | hc
    · exfalso
      apply hcond
      constructor
      · rw [List.length_take]
        omega
      · trivial
    · exact hc
  refine ⟨rfl, ?_, hle⟩
  rw [List.length_take]
  omega

/-- Per-field round-trip for `simpleStrict` fields: the encoding of a
successfully parsed value succeeds, and re-parsing it (under any
continuation of the stream) returns the same value, consuming exactly
the encoded bytes. -/
theorem fieldToStream_fromStream (f : FieldSpec) (stream : Bytes) (v : Value) (n : Nat)
    (hs : FieldSpec.simpleStrict f = true) (hvalid : ValidBytes stream)
    (h : fieldFromStream f stream = .ok (v, n)) :
    ∃ b, fieldToStream f v = .ok b ∧
      ∀ tail, fieldFromStream f (b ++ tail) = .ok (v, b.length) := by
  cases f with
  | bytesF cfg =>
    simp only [FieldSpec.simpleStrict, Bool.and_eq_true, decide_eq_true_eq,
      Option.isNone_iff_eq_none] at hs
    obtain ⟨⟨⟨hNneg, hterm⟩, hpad⟩, hstrict⟩ := hs
    have hlen : cfg.length = ((cfg.length.toNat : Nat) : Int) := by omega
    cases hbs : bytesFromStreamFixed cfg stream with
    | error e =>
      rw [fieldFromStream, hbs] at h
      cases h
    | ok r =>
      rw [fieldFromStream, hbs] at h
      simp only [Except.map] at h
      injection h with h1
      injection h1 with hv hn
      obtain ⟨hbval, hbn, hble⟩ :=
        bytesFromStreamFixed_strict_inv cfg cfg.length.toNat stream r.1 r.2 hlen
          hterm hpad hstrict (by rw [hbs])
      have hrlen : r.1.length = cfg.length.toNat := by
        rw [hbval, List.length_take]
        omega
      refine ⟨r.1, ?_, ?_⟩
      · rw [← hv, fieldToStream, bytesToStreamFixed,
          bytesToStreamTermPart_none cfg r.1 hterm]
        simp only [Except.bind]
        rw [bytesToStreamLenPart]
        rw [if_neg (by omega : ¬ cfg.length < 0), hpad]
        rw [if_neg (by omega : ¬ r.1.length < cfg.length.toNat)]
        rw [if_neg (by omega : ¬ cfg.length.toNat < r.1.length)]
      · intro tail
        rw [fieldFromStream,
          bytesFromStreamFixed_eval cfg cfg.length.toNat (r.1 ++ tail) hlen hterm
            (by rw [List.length_append]; omega)]
        simp only [hpad, Except.map]
        rw [← hrlen, List.take_left, ← hv, hrlen]
  | integerF cfg =>
    simp only [FieldSpec.simpleStrict] at hs
    have hlen : cfg.toBytesCfg.length = ((cfg.length : Nat) : Int) := rfl
    cases hbs : bytesFromStreamFixed cfg.toBytesCfg stream with
    | error e =>
      rw [fieldFromStream, integerFromStream, hbs] at h
      cases h
    | ok r =>
      rw [fieldFromStream, integerFromStream, hbs] at h
      simp only [Except.bind] at h
      obtain ⟨hbval, hbn, hble⟩ :=
        bytesFromStreamFixed_strict_inv cfg.toBytesCfg cfg.length stream r.1 r.2 hlen
          rfl rfl hs (by rw [hbs])
      have hrlen : r.1.length = cfg.length := by
        rw [hbval, List.length_take]
        omega
      cases heff : effectiveByteOrder cfg.byte_order r.1.length with
      | none =>
        rw [heff] at h
        cases h
      | some bo =>
        rw [heff] at h
        simp only [Except.map] at h
        injection h with h1
        injection h1 with hv hn
        have hvalid1 : ValidBytes r.1 := by
          rw [hbval]
          exact validBytes_take stream cfg.length hvalid
        refine ⟨r.1, ?_, ?_⟩
        · rw [← hv, fieldToStream, integerToStream, ← hrlen, heff,
            pyIntToBytes_pyIntFromBytes r.1 bo cfg.signed hvalid1]
        · intro tail
          rw [fieldFromStream, integerFromStream,
            bytesFromStreamFixed_eval cfg.toBytesCfg cfg.length (r.1 ++ tail) hlen rfl
              (by rw [List.length_append]; omega)]
          dsimp only [IntegerFieldCfg.toBytesCfg]
          simp only [Except.bind]
          rw [← hrlen, List.take_left, heff]
          simp only [Except.map]
          rw [← hv, hrlen]
  | varintF =>
    cases hu : varintFromStream stream with
    | error e =>
      rw [fieldFromStream, hu] at h
      cases h
    | ok r =>
      rw [fieldFromStream, hu] at h
      simp only [Except.map] at h
      injection h with h1
      injection h1 with hv hn
      refine ⟨varintHigh (r.1 >>> 7) ++ [r.1 &&& 127], ?_, ?_⟩
      · rw [← hv, fieldToStream, varintToStream,
          if_neg (not_lt.mpr (Int.ofNat_nonneg r.1)), Int.toNat_natCast]
      · intro tail
        rw [fieldFromStream, varintFromStream_encode r.1 tail]
        simp only [Except.map]
        rw [← hv]

/-- Structure-level round-trip for lists of `simpleStrict` fields,
with an explicit stream continuation for composability. -/
theorem structToStream_fromStream (fields : List FieldSpec) :
    ∀ (stream : Bytes) (vs : List Value) (n : Nat),
    (∀ f ∈ fields, FieldSpec.simpleStrict f = true) → ValidBytes stream →
    structFromStream fields stream = .ok (vs, n) →
    ∃ b, structToStream fields vs = .ok b ∧
      ∀ tail, structFromStream fields (b ++ tail) = .ok (vs, b.length) := by
  induction fields with
  | nil =>
    intro stream vs n _ _ h
    rw [structFromStream] at h
    injection h with h1
    injection h1 with hv hn
    refine ⟨[], ?_, fun tail => ?_⟩
    · rw [← hv, structToStream]
    · rw [List.nil_append, structFromStream, ← hv]
      rfl
  | cons f fs ih =>
    intro stream vs n hsimple hvalid h
    rw [structFromStream] at h
    cases hf : fieldFromStream f stream with
    | error e =>
      rw [hf] at h
      cases h
    | ok r =>
      rw [hf] at h
      simp only [Except.bind] at h
      cases hrest : structFromStream fs (stream.drop r.2) with
      | error e =>
        rw [hrest] at h
        cases h
      | ok rr =>
        rw [hrest] at h
        simp only [Except.map] at h
        injection h with h1
        injection h1 with hv hn
        obtain ⟨b1, hb1, hb1dec⟩ :=
          fieldToStream_fromStream f stream r.1 r.2
            (hsimple f (List.mem_cons_self f fs)) hvalid (by rw [hf])
        obtain ⟨b2, hb2, hb2dec⟩ :=
          ih (stream.drop r.2) rr.1 rr.2
            (fun g hg => hsimple g (List.mem_cons_of_mem f hg))
            (validBytes_drop stream r.2 hvalid) (by rw [hrest])
        refine ⟨b1 ++ b2, ?_, fun tail => ?_⟩
        · rw [← hv, structToStream, hb1]
          simp only [Except.bind]
          rw [hb2]
          simp only [Except.map]
        · rw [List.append_assoc, structFromStream, hb1dec (b2 ++ tail)]
          simp only [Except.bind]
          rw [List.drop_left, hb2dec tail]
          simp only [Except.map]
          rw [← hv, List.length_append]

/-- C1, counterexample: a `BytesField(length=5, terminator=b"\x00")`
parses `b"ab\x00cd"` into `b"ab"` (consuming all 5 bytes), but
re-encoding that parsed value fails with `WriteError` — the value plus
terminator is 3 bytes, short of the fixed length 5, there is no
padding, and the field is strict — so the decoded instance cannot be
encoded at all, contradicting the unconditional round-trip claim. -/
theorem structure_roundtrip_counterexample :
    structFromStream [.bytesF { length := 5, terminator := some [0] }]
      [97, 98, 0, 99, 100] = .ok ([.bytesV [97, 98]], 5) ∧
    structToStream [.bytesF { length := 5, terminator := some [0] }]
      [.bytesV [97, 98]] = .error .writeError :=
  ⟨rfl, rfl⟩

/-- C1, amended: for structures all of whose fields are `simpleStrict`
(strict fixed-length bytes without terminator or padding, strict
integers, varints), a value parsed from any valid byte stream
re-encodes successfully, and decoding the encoded bytes yields the
same value, consuming the whole encoding. -/
theorem structure_roundtrip (fields : List FieldSpec) (stream : Bytes)
    (vs : List Value) (n : Nat)
    (hsimple : ∀ f ∈ fields, FieldSpec.simpleStrict f = true)
    (hvalid : ValidBytes stream)
    (h : structFromStream fields stream = .ok (vs, n)) :
    ∃ b, structToStream fields vs = .ok b ∧
      structFromStream fields b = .ok (vs, b.length) := by
  obtain ⟨b, hb, hdec⟩ := structToStream_fromStream fields stream vs n hsimple hvalid h
  refine ⟨b, hb, ?_⟩
  have hd := hdec []
  rwa [List.append_nil] at hd

/-- Witness for `structure_roundtrip`: a big-endian 2-byte integer
followed by a varint, decoded from `[1, 2, 130, 5]`. -/
theorem structure_roundtrip_witness :
    ∃ b, structToStream [.integerF { length := 2, byte_order := some .big }, .varintF]
        [.intV 258, .intV 261] = .ok b ∧
      structFromStream [.integerF { length := 2, byte_order := some .big }, .varintF]
        b = .ok ([.intV 258, .intV 261], b.length) :=
  structure_roundtrip
    [.integerF { length := 2, byte_order := some .big }, .varintF]
    [1, 2, 130, 5] [.intV 258, .intV 261] 4
    (by decide) (by decide) rfl
